import Mathlib

/-!
Shallow embedding of the item lifecycle and reconciliation core of the
sokubaikai purchase-planning application (source: `src/unnamed/part_002`,
the revision starting at line 1369, which the spec designates as the
authoritative tiered-key variant).

Items, the two-column day partitions, manual reordering
(`handleMoveItem`), partition membership (`handleMoveToExecuteColumn`),
the reconciliation diff (`handleUpdateEvent`), its confirmation
(`handleConfirmUpdate`), the CSV row parser, and the two column
projections (`executeColumnItems` / `candidateColumnItems`) are
translated directly from the source.  The key helpers `getItemKey`,
`getItemKeyWithoutTitle` and `insertItemSorted` live in
`src/utils/itemComparison`, which is absent from the sources; those
three are modelled from the spec and carry doc comments saying so.
-/

namespace Sokubaikai

/-- `PurchaseStatus` from `types.ts` (`PurchaseStatuses` array). -/
inductive PurchaseStatus where
  | None | Purchased | SoldOut | Absent | Postpone | Late
deriving DecidableEq, Repr

/-- `ShoppingItem` from `types.ts`. `price` is a non-negative integer. -/
structure ShoppingItem where
  id : String
  circle : String
  eventDate : String
  block : String
  number : String
  title : String
  price : Nat
  purchaseStatus : PurchaseStatus
  remarks : String
deriving DecidableEq, Repr

/-- `Omit<ShoppingItem, 'id' | 'purchaseStatus'>`: a parsed sheet row /
reconciliation candidate, before an id is assigned. -/
structure SheetItem where
  circle : String
  eventDate : String
  block : String
  number : String
  title : String
  price : Nat
  remarks : String
deriving DecidableEq, Repr

/-- The id-less field part of a `ShoppingItem` (TypeScript compares the
two structurally; in Lean we project explicitly). -/
def ShoppingItem.fields (it : ShoppingItem) : SheetItem :=
  ⟨it.circle, it.eventDate, it.block, it.number, it.title, it.price, it.remarks⟩

/-- Modelled from the spec: `getItemKey` from `src/utils/itemComparison`
(imported at part_002 line 1369 but the file is not under `src/`).
Spec §3: "ItemKey — a composite string derived from
`(circleName, eventDate, block, number, title)` ('full key')".  We model
the composite as the tuple itself, which is the deterministic identity
the spec describes. -/
def getItemKey (s : SheetItem) : String × String × String × String × String :=
  (s.circle, s.eventDate, s.block, s.number, s.title)

/-- Modelled from the spec: `getItemKeyWithoutTitle` from
`src/utils/itemComparison` (absent from `src/`).  Spec §3: "or the same
tuple omitting `title` ('loose key')". -/
def getItemKeyWithoutTitle (s : SheetItem) : String × String × String × String :=
  (s.circle, s.eventDate, s.block, s.number)

/-- Last value stored under key `k` when the entries of `l` are written
into a JavaScript `Map` in order (later writes to the same key
overwrite earlier ones).  `new Map(l.map(x => [key(x), x])).get(k)`. -/
def mapGetLast {α κ : Type} [DecidableEq κ] (key : α → κ) (k : κ) :
    List α → Option α
  | [] => none
  | x :: xs =>
    match mapGetLast key k xs with
    | some y => some y
    | none => if key x = k then some x else none

/-- `Map.has` for the same map: some entry of `l` carries key `k`. -/
def mapHas {α κ : Type} [DecidableEq κ] (key : α → κ) (k : κ)
    (l : List α) : Bool :=
  (mapGetLast key k l).isSome

theorem mapGetLast_mem {α κ : Type} [DecidableEq κ] {key : α → κ} {k : κ}
    {l : List α} {y : α} (h : mapGetLast key k l = some y) :
    y ∈ l ∧ key y = k := by
  induction l with
  | nil => simp [mapGetLast] at h
  | cons x xs ih =>
    simp only [mapGetLast] at h
    cases hxs : mapGetLast key k xs with
    | some z =>
      rw [hxs] at h
      obtain ⟨hm, hk⟩ := ih (hxs.trans (by injection h with h; rw [h]))
      exact ⟨List.mem_cons_of_mem _ hm, hk⟩
    | none =>
      rw [hxs] at h
      by_cases hx : key x = k
      · simp [hx] at h
        exact ⟨by simp [← h], by rw [← h]; exact hx⟩
      · simp [hx] at h

theorem mapGetLast_eq_none_iff {α κ : Type} [DecidableEq κ] {key : α → κ}
    {k : κ} {l : List α} :
    mapGetLast key k l = none ↔ ∀ x ∈ l, key x ≠ k := by
  induction l with
  | nil => simp [mapGetLast]
  | cons x xs ih =>
    simp only [mapGetLast]
    cases hxs : mapGetLast key k xs with
    | some z =>
      simp only [reduceCtorEq, false_iff, not_forall]
      obtain ⟨hm, hk⟩ := mapGetLast_mem hxs
      exact ⟨z, List.mem_cons_of_mem _ hm, by simp [hk]⟩
    | none =>
      by_cases hx : key x = k <;> simp [hx, List.forall_mem_cons, ih.mp hxs]
      exact ih.mp hxs

theorem mapGetLast_isSome_iff {α κ : Type} [DecidableEq κ] {key : α → κ}
    {k : κ} {l : List α} :
    (mapGetLast key k l).isSome = true ↔ ∃ x ∈ l, key x = k := by
  rw [Option.isSome_iff_ne_none, Ne, mapGetLast_eq_none_iff]
  push_neg
  simp

/-- If exactly one element of `l` carries key `k`, the map returns it. -/
theorem mapGetLast_eq_of_unique {α κ : Type} [DecidableEq κ] {key : α → κ}
    {k : κ} {l : List α} {y : α} (hy : y ∈ l) (hk : key y = k)
    (huniq : ∀ z ∈ l, key z = k → z = y) :
    mapGetLast key k l = some y := by
  induction l with
  | nil => cases hy
  | cons x xs ih =>
    simp only [mapGetLast]
    cases hxs : mapGetLast key k xs with
    | some z =>
      obtain ⟨hm, hkz⟩ := mapGetLast_mem hxs
      rw [huniq z (List.mem_cons_of_mem _ hm) hkz]
    | none =>
      have hnot := mapGetLast_eq_none_iff.mp hxs
      rcases List.mem_cons.mp hy with rfl | hmem
      · simp [hk]
      · exact absurd hk (hnot y hmem)

/-! ## Manual reordering (`handleMoveItem`, part_002 lines 1526-1593) -/

/-- The multi-select block move shared by both branches of
`handleMoveItem` (lines 1540-1552 on id lists, 1577-1585 on item lists):
filter out the selected block, find the hover target in the remainder,
and splice the block in immediately before it; if the target is not in
the remainder the state is returned unchanged. -/
def blockMove {α : Type} (key : α → String) (selected : List String)
    (hoverId : String) (l : List α) : List α :=
  match (l.filter (fun x => !(selected.contains (key x)))).findIdx?
      (fun x => key x == hoverId) with
  | none => l
  | some targetIndex =>
    (l.filter (fun x => !(selected.contains (key x)))).take targetIndex ++
      l.filter (fun x => selected.contains (key x)) ++
      (l.filter (fun x => !(selected.contains (key x)))).drop targetIndex

/-- Execute-mode branch of `handleMoveItem` (lines 1569-1592), acting on
the event's item collection: both indices are looked up first and a `-1`
on either is a no-op; a selected drag id triggers the block move, else
the dragged item is spliced out and re-inserted at the hover index. -/
def handleMoveItemExecute (selected : List String) (dragId hoverId : String)
    (items : List ShoppingItem) : List ShoppingItem :=
  match items.findIdx? (fun it => it.id == dragId),
        items.findIdx? (fun it => it.id == hoverId) with
  | some dragIndex, some hoverIndex =>
    if selected.contains dragId then
      blockMove (fun it => it.id) selected hoverId items
    else
      match items[dragIndex]? with
      | some draggedItem => (items.eraseIdx dragIndex).insertIdx hoverIndex draggedItem
      | none => items
  | _, _ => items

/-- Edit-mode branch of `handleMoveItem` (lines 1536-1568), acting on one
day's active id list of the partition: selection check first, block move
on a selected drag id, else the same splice with `-1` checks. -/
def handleMoveItemEdit (selected : List String) (dragId hoverId : String)
    (dayItems : List String) : List String :=
  if selected.contains dragId then
    blockMove (fun i => i) selected hoverId dayItems
  else
    match dayItems.findIdx? (fun i => i == dragId),
          dayItems.findIdx? (fun i => i == hoverId) with
    | some dragIndex, some hoverIndex =>
      match dayItems[dragIndex]? with
      | some dragged => (dayItems.eraseIdx dragIndex).insertIdx hoverIndex dragged
      | none => dayItems
    | _, _ => dayItems

/-- `handleUpdateItem` (lines 1518-1524): replace the item with matching
id, leaving everything else in place. -/
def handleUpdateItem (updatedItem : ShoppingItem)
    (items : List ShoppingItem) : List ShoppingItem :=
  items.map (fun item => if item.id = updatedItem.id then updatedItem else item)

/-! ## Partition membership (`handleMoveToExecuteColumn`, lines 1595-1617) -/

/-- `Set.add` of a JavaScript insertion-ordered `Set` represented as the
list of its elements in insertion order: adding a present element is a
no-op, a new element goes to the end. -/
def setAdd (l : List String) (x : String) : List String :=
  if x ∈ l then l else l ++ [x]

/-- `handleMoveToExecuteColumn` on one day's active id list:
`new Set(currentDayItems)` then `itemIds.forEach(id => set.add(id))`
then `Array.from(set)`. -/
def handleMoveToExecuteColumn (dayItems : List String)
    (itemIds : List String) : List String :=
  itemIds.foldl setAdd (dayItems.foldl setAdd [])

/-! ## Sheet row parsing (`handleUpdateEvent`, lines 2042-2090) -/

mutual

/-- The character loop of lines 2044-2065: split one CSV line into cells
on unquoted commas, a doubled quote inside a quoted field standing for
one literal quote. State: inside-quotes flag and the cell built so far. -/
def splitCsvGo (insideQuotes : Bool) (currentCell : String) :
    List Char → List String
  | [] => [currentCell]
  | c :: rest =>
    if c = '"' then
      if insideQuotes then
        splitCsvQuote currentCell rest
      else splitCsvGo true currentCell rest
    else if c = ',' ∧ insideQuotes = false then
      currentCell :: splitCsvGo insideQuotes "" rest
    else splitCsvGo insideQuotes (currentCell.push c) rest
termination_by l => 2 * l.length + 1
decreasing_by all_goals simp +arith

/-- Helper for `splitCsvGo`: a quote seen while inside a quoted cell is
either the first half of a doubled quote (emit one literal quote, stay
inside) or the closing quote (leave the quoted state). -/
def splitCsvQuote (currentCell : String) : List Char → List String
  | '"' :: rest2 => splitCsvGo true (currentCell.push '"') rest2
  | rest => splitCsvGo false currentCell rest
termination_by l => 2 * l.length + 2
decreasing_by all_goals simp +arith

end

/-- Split a raw line into its cells. -/
def splitCsvLine (line : String) : List String :=
  splitCsvGo false "" line.toList

/-- JavaScript `String.prototype.trim`: strip leading and trailing
whitespace.  (Defined by structural recursion over the character list.) -/
def trimString (s : String) : String :=
  String.mk
    (((s.toList.dropWhile Char.isWhitespace).reverse.dropWhile
      Char.isWhitespace).reverse)

/-- `(cells[17] || '0').replace(/[^0-9]/g, '')` then `parseInt(..., 10) || 0`:
a missing or empty cell counts as "0"; non-digit characters are removed;
an all-non-digit cell parses to `NaN`, which `|| 0` turns into 0 (the
fold over the remaining digit characters returns 0 exactly in that
case). -/
def parsePrice (cell : Option String) : Nat :=
  let s := match cell with
    | none => "0"
    | some t => if t = "" then "0" else t
  (s.toList.filter Char.isDigit).foldl
    (fun n c => n * 10 + (c.toNat - '0'.toNat)) 0

/-- Lines 2067-2090: build the candidate item of one split row, skipping
the row when any of the four mandatory cells (indices 12-15) is missing
or blank after trimming. -/
def buildSheetItem (cells : List String) : Option SheetItem :=
  if trimString (cells.getD 12 "") = "" ∨ trimString (cells.getD 13 "") = "" ∨
     trimString (cells.getD 14 "") = "" ∨ trimString (cells.getD 15 "") = ""
  then none
  else
    some { circle := trimString (cells.getD 12 "")
           eventDate := trimString (cells.getD 13 "")
           block := trimString (cells.getD 14 "")
           number := trimString (cells.getD 15 "")
           title := trimString (cells.getD 16 "")
           price := parsePrice cells[17]?
           remarks := trimString (cells.getD 22 "") }

/-- Lines 2038-2090: the fetched text is split into lines, blank lines
are dropped, the header line is skipped, and each remaining line is
split into cells and parsed into a candidate when its mandatory cells
are present. -/
def parseSheetItems (text : String) : List SheetItem :=
  let lines := (text.splitOn "\n").filter (fun line => trimString line ≠ "")
  (lines.drop 1).filterMap (fun line => buildSheetItem (splitCsvLine line))

/-! ## Sorted insertion (`insertItemSorted`) -/

/-- One token of a numeric-aware string comparison: a maximal digit run
read as a number, or a maximal non-digit run. -/
inductive NatToken where
  | num (n : Nat)
  | str (s : String)
deriving DecidableEq, Repr

/-- Append one character to a reversed token list, extending the head
token when it is of the same kind. -/
def pushToken (acc : List NatToken) (c : Char) : List NatToken :=
  if c.isDigit then
    match acc with
    | NatToken.num n :: rest => NatToken.num (n * 10 + (c.toNat - '0'.toNat)) :: rest
    | _ => NatToken.num (c.toNat - '0'.toNat) :: acc
  else
    match acc with
    | NatToken.str s :: rest => NatToken.str (s.push c) :: rest
    | _ => NatToken.str (String.mk [c]) :: acc

/-- Tokenize a string into digit / non-digit runs. -/
def natTokens (s : String) : List NatToken :=
  (s.toList.foldl pushToken []).reverse

/-- Compare two tokens: digit runs numerically, others lexicographically,
digit runs before non-digit runs. -/
def compareToken : NatToken → NatToken → Ordering
  | NatToken.num a, NatToken.num b => compare a b
  | NatToken.num _, NatToken.str _ => Ordering.lt
  | NatToken.str _, NatToken.num _ => Ordering.gt
  | NatToken.str a, NatToken.str b => compare a b

/-- Lexicographic comparison of token lists. -/
def compareTokens : List NatToken → List NatToken → Ordering
  | [], [] => Ordering.eq
  | [], _ :: _ => Ordering.lt
  | _ :: _, [] => Ordering.gt
  | a :: as', b :: bs' =>
    match compareToken a b with
    | Ordering.eq => compareTokens as' bs'
    | o => o

/-- Modelled from the spec: the numeric-aware string comparison used by
`insertItemSorted` in `src/utils/itemComparison` (absent from `src/`).
Spec §4.1: "locale-aware, numeric-aware string comparison (so 'A-2'
sorts before 'A-10')". -/
def naturalCompare (a b : String) : Ordering :=
  compareTokens (natTokens a) (natTokens b)

/-- Modelled from the spec: the ascending `(block, number)` comparison of
`insertItemSorted`; "items with no comparable block are ordered last". -/
def compareItems (a b : ShoppingItem) : Ordering :=
  if a.block = "" ∧ b.block ≠ "" then Ordering.gt
  else if a.block ≠ "" ∧ b.block = "" then Ordering.lt
  else
    match naturalCompare a.block b.block with
    | Ordering.eq => naturalCompare a.number b.number
    | o => o

/-- Modelled from the spec: `insertItemSorted` from
`src/utils/itemComparison` (imported at part_002 line 1369, file not
under `src/`).  Spec §4.1: "insert `newItem` into the first position
where it is not strictly greater than the following item". -/
def insertItemSorted (l : List ShoppingItem) (newItem : ShoppingItem) :
    List ShoppingItem :=
  match l with
  | [] => [newItem]
  | x :: xs =>
    if compareItems newItem x ≠ Ordering.gt then newItem :: x :: xs
    else x :: insertItemSorted xs newItem

/-! ## The reconciliation diff (`handleUpdateEvent`, lines 2092-2152) -/

/-- Full key of a current item, `getItemKey(item)` in the source. -/
def itemFullKey (it : ShoppingItem) : String × String × String × String × String :=
  getItemKey it.fields

/-- Loose key of a current item, `getItemKeyWithoutTitle(item)`. -/
def itemLooseKey (it : ShoppingItem) : String × String × String × String :=
  getItemKeyWithoutTitle it.fields

/-- The pending change-set `{itemsToDelete, itemsToUpdate, itemsToAdd}`. -/
structure UpdateData where
  itemsToDelete : List ShoppingItem
  itemsToUpdate : List ShoppingItem
  itemsToAdd : List SheetItem
deriving DecidableEq, Repr

/-- Lines 2114-2150, the per-fetched-row decision: a full-key match
emits an update only when price or remarks changed; otherwise a
loose-key match emits an update replacing title, price and remarks and
carrying over id and purchase status; otherwise (`none` here) the row
is either unchanged or an add. -/
def rowUpdate (currentItems : List ShoppingItem) (sheetItem : SheetItem) :
    Option ShoppingItem :=
  match mapGetLast itemFullKey (getItemKey sheetItem) currentItems with
  | some existingWithAll =>
    if existingWithAll.price ≠ sheetItem.price ∨
       existingWithAll.remarks ≠ sheetItem.remarks then
      some { existingWithAll with price := sheetItem.price,
                                  remarks := sheetItem.remarks }
    else none
  | none =>
    match mapGetLast itemLooseKey (getItemKeyWithoutTitle sheetItem) currentItems with
    | some existingWithoutTitle =>
      some { existingWithoutTitle with title := sheetItem.title,
                                       price := sheetItem.price,
                                       remarks := sheetItem.remarks }
    | none => none

/-- A fetched row is an add when neither its full key nor its loose key
matches any current item (lines 2119, 2136, 2149). -/
def rowIsAdd (currentItems : List ShoppingItem) (s : SheetItem) : Bool :=
  !(mapHas itemFullKey (getItemKey s) currentItems) &&
  !(mapHas itemLooseKey (getItemKeyWithoutTitle s) currentItems)

/-- Lines 2092-2152: the three-way diff.  Deletes are the current items
whose loose key is absent from the fetched loose-key map; updates and
adds are collected while iterating the fetched rows. -/
def computeUpdateData (currentItems : List ShoppingItem)
    (sheetItems : List SheetItem) : UpdateData :=
  { itemsToDelete := currentItems.filter (fun item =>
      !(mapHas getItemKeyWithoutTitle (getItemKeyWithoutTitle item.fields) sheetItems))
    itemsToUpdate := sheetItems.filterMap (rowUpdate currentItems)
    itemsToAdd := sheetItems.filter (rowIsAdd currentItems) }

/-! ## Confirming a change-set (`handleConfirmUpdate`, lines 2162-2219) -/

/-- Lines 2181-2191: a brand-new item built from an added row, with a
freshly generated id and purchase status `None`. -/
def mkShoppingItem (newId : String) (s : SheetItem) : ShoppingItem :=
  { id := newId, circle := s.circle, eventDate := s.eventDate,
    block := s.block, number := s.number, title := s.title,
    price := s.price, purchaseStatus := PurchaseStatus.None,
    remarks := s.remarks }

/-- The `itemsToAdd.forEach` loop of lines 2180-2194: insert each added
row in sorted position, each with a fresh id (`crypto.randomUUID()` is
modelled by the id supply `freshIds`, consumed in order starting at
`i`). -/
def insertAdds (freshIds : Nat → String) (i : Nat) :
    List SheetItem → List ShoppingItem → List ShoppingItem
  | [], acc => acc
  | s :: rest, acc =>
    insertAdds freshIds (i + 1) rest
      (insertItemSorted acc (mkShoppingItem (freshIds i) s))

/-- Line 2177: `updateMap.get(item.id) || item` — replace an item by its
update entry when one exists. -/
def updFn (itemsToUpdate : List ShoppingItem) (item : ShoppingItem) :
    ShoppingItem :=
  (mapGetLast (fun u => u.id) item.id itemsToUpdate).getD item

/-- The `setEventLists` updater of lines 2168-2197: filter out the
deleted ids, replace items by id from the update map, then insert each
added row in sorted position with a fresh id. -/
def applyUpdateData (freshIds : Nat → String)
    (current : List ShoppingItem) (d : UpdateData) : List ShoppingItem :=
  let deleteIds := d.itemsToDelete.map (fun item => item.id)
  let afterDelete := current.filter (fun item => !(deleteIds.contains item.id))
  let afterUpdate := afterDelete.map (updFn d.itemsToUpdate)
  insertAdds freshIds 0 d.itemsToAdd afterUpdate

/-- `handleConfirmUpdate` at store level (lines 2162-2219): the event's
list in `eventLists` is rebuilt by `applyUpdateData` on the current list
(`prev[eventName] || []`), and the deleted ids are pruned from both
days' partitions when the event has partitions (`if (!eventItems)
return prev`). -/
def handleConfirmUpdate (freshIds : Nat → String) (eventName : String)
    (d : UpdateData)
    (eventLists : String → Option (List ShoppingItem))
    (executeModeItems : String → Option (List String × List String)) :
    (String → Option (List ShoppingItem)) ×
      (String → Option (List String × List String)) :=
  let newItems := applyUpdateData freshIds ((eventLists eventName).getD []) d
  let newLists := fun n => if n = eventName then some newItems else eventLists n
  let deleteIds := d.itemsToDelete.map (fun item => item.id)
  let newExec := fun n =>
    if n = eventName then
      match executeModeItems eventName with
      | none => none
      | some (day1, day2) =>
        some (day1.filter (fun i => !(deleteIds.contains i)),
              day2.filter (fun i => !(deleteIds.contains i)))
    else executeModeItems n
  (newLists, newExec)

/-! ## Column projections (lines 2229-2230, 2305-2319) -/

/-- Substring search on character lists (structural recursion). -/
def isInfixOfChars (needle : List Char) : List Char → Bool
  | [] => needle.isEmpty
  | c :: rest => needle.isPrefixOf (c :: rest) || isInfixOfChars needle rest

/-- `a.includes(b)` on strings: `b` occurs as a substring of `a`. -/
def includesStr (a b : String) : Bool := isInfixOfChars b.toList a.toList

/-- `day1Items` / `day2Items` (lines 2229-2230): the items of the event
whose `eventDate` contains the day tag (`'1日目'` or `'2日目'`). -/
def dayItemsFor (dayTag : String) (items : List ShoppingItem) :
    List ShoppingItem :=
  items.filter (fun item => includesStr item.eventDate dayTag)

/-- `executeColumnItems` (lines 2305-2311): map each active id to its
item in the whole event collection (last-write-wins id map), dropping
ids with no item; no day filter is applied. -/
def executeColumnItems (executeIds : List String)
    (items : List ShoppingItem) : List ShoppingItem :=
  executeIds.filterMap (fun i => mapGetLast (fun it => it.id) i items)

/-- `candidateColumnItems` (lines 2313-2319): the current day's items
whose ids are not in the day's active list. -/
def candidateColumnItems (dayTag : String) (executeIds : List String)
    (items : List ShoppingItem) : List ShoppingItem :=
  (dayItemsFor dayTag items).filter (fun item => !(executeIds.contains item.id))

/-! ## List helpers for the reorder proofs -/

theorem insertIdx_eq_take_cons_drop {α : Type} (l : List α) (x : α) {n : Nat}
    (h : n ≤ l.length) : l.insertIdx n x = l.take n ++ x :: l.drop n := by
  induction l generalizing n with
  | nil =>
    have : n = 0 := Nat.le_zero.mp h
    subst this
    simp [List.insertIdx]
  | cons a t ih =>
    cases n with
    | zero => simp [List.insertIdx_zero]
    | succ m =>
      simp only [List.insertIdx_succ_cons, List.take_succ_cons, List.drop_succ_cons,
        List.cons_append, List.cons.injEq, true_and]
      exact ih (Nat.le_of_succ_le_succ h)

theorem cons_eraseIdx_perm {α : Type} [DecidableEq α] {l : List α} {di : Nat}
    {x : α} (hx : l[di]? = some x) : (x :: l.eraseIdx di).Perm l := by
  obtain ⟨hdi, hget⟩ := List.getElem?_eq_some.mp hx
  rw [List.perm_iff_count]
  intro a
  conv_rhs => rw [← List.take_append_drop di l, ← List.get_drop_eq_drop l di hdi]
  rw [List.eraseIdx_eq_take_drop_succ]
  simp only [List.count_append, List.count_cons, hget]
  omega

theorem splice_perm {α : Type} [DecidableEq α] {l : List α} {di hi : Nat} {x : α}
    (hx : l[di]? = some x) (hhi : hi < l.length) :
    ((l.eraseIdx di).insertIdx hi x).Perm l := by
  obtain ⟨hdi, -⟩ := List.getElem?_eq_some.mp hx
  have hle : hi ≤ (l.eraseIdx di).length := by
    rw [List.length_eraseIdx]
    simp only [hdi, if_true]
    omega
  exact (List.perm_insertIdx x _ hle).trans (cons_eraseIdx_perm hx)

theorem blockMove_perm {α : Type} [DecidableEq α] (key : α → String)
    (selected : List String) (hoverId : String) (l : List α) :
    (blockMove key selected hoverId l).Perm l := by
  unfold blockMove
  cases hfi : (l.filter (fun x => !(selected.contains (key x)))).findIdx?
      (fun x => key x == hoverId) with
  | none => exact List.Perm.refl l
  | some ti =>
    rw [List.perm_iff_count]
    intro a
    have h1 : List.count a (l.filter (fun x => selected.contains (key x))) +
        List.count a (l.filter (fun x => !(selected.contains (key x)))) =
        List.count a l := by
      rw [← List.count_append]
      exact (List.filter_append_perm _ l).count_eq a
    have h2 : List.count a
          ((l.filter (fun x => !(selected.contains (key x)))).take ti) +
        List.count a
          ((l.filter (fun x => !(selected.contains (key x)))).drop ti) =
        List.count a (l.filter (fun x => !(selected.contains (key x)))) := by
      rw [← List.count_append, List.take_append_drop]
    simp only [List.count_append]
    omega

/-- `x` is immediately followed by `y` somewhere in `l`. -/
def adjacentIn (l : List String) (x y : String) : Bool :=
  (l.zip l.tail).contains (x, y)

theorem adjacentIn_append (p q : List String) (x y : String) :
    adjacentIn (p ++ x :: y :: q) x y = true := by
  induction p with
  | nil => simp [adjacentIn]
  | cons a p ih =>
    unfold adjacentIn at ih ⊢
    cases hp : p ++ x :: y :: q with
    | nil => simp at hp
    | cons b t =>
      rw [hp] at ih
      simp only [List.cons_append, hp, List.tail_cons, List.zip_cons_cons,
        List.contains_cons]
      simp only [List.tail_cons] at ih
      rw [ih]
      simp

/-- C6: `moveItem` (`handleMoveItem`), in both the edit-mode partition
branch and the execute-mode collection branch, never changes the
multiset of ids of the reordered list: the result is a permutation of
the input, so every id keeps its multiplicity. -/
theorem c6_moveItem_conserves_id_multiset (selected : List String)
    (dragId hoverId : String) (items : List ShoppingItem)
    (dayItems : List String) :
    ((handleMoveItemExecute selected dragId hoverId items).map
      (fun it => it.id)).Perm (items.map (fun it => it.id)) ∧
    (handleMoveItemEdit selected dragId hoverId dayItems).Perm dayItems := by
  constructor
  · refine List.Perm.map _ ?_
    unfold handleMoveItemExecute
    cases hd : items.findIdx? (fun it => it.id == dragId) with
    | none => exact List.Perm.refl _
    | some di =>
      cases hh : items.findIdx? (fun it => it.id == hoverId) with
      | none => exact List.Perm.refl _
      | some hi =>
        simp only []
        by_cases hsel : selected.contains dragId
        · simp only [hsel, if_true]
          exact blockMove_perm _ _ _ _
        · simp only [hsel, if_false]
          cases hx : items[di]? with
          | none => exact List.Perm.refl _
          | some dragged =>
            exact splice_perm hx (List.findIdx?_eq_some_iff_findIdx_eq.mp hh).1
  · unfold handleMoveItemEdit
    by_cases hsel : selected.contains dragId
    · simp only [hsel, if_true]
      exact blockMove_perm _ _ _ _
    · simp only [hsel, if_false]
      cases hd : dayItems.findIdx? (fun i => i == dragId) with
      | none => exact List.Perm.refl _
      | some di =>
        cases hh : dayItems.findIdx? (fun i => i == hoverId) with
        | none => exact List.Perm.refl _
        | some hi =>
          simp only []
          cases hx : dayItems[di]? with
          | none => exact List.Perm.refl _
          | some dragged =>
            exact splice_perm hx (List.findIdx?_eq_some_iff_findIdx_eq.mp hh).1

theorem findIdx?_prop {α : Type} {p : α → Bool} {l : List α} {i : Nat}
    (h : l.findIdx? p = some i) (hi : i < l.length) : p l[i] = true := by
  obtain ⟨hlt, hfi⟩ := List.findIdx?_eq_some_iff_findIdx_eq.mp h
  subst hfi
  exact @List.findIdx_getElem _ _ _ hlt

theorem splice_up {α : Type} {l : List α} {di hi : Nat} {x : α}
    (hx : l[di]? = some x) (hhi : hi < l.length) (hlt : hi < di) :
    ∃ p q, (l.eraseIdx di).insertIdx hi x = p ++ x :: l[hi] :: q := by
  obtain ⟨hdi, -⟩ := List.getElem?_eq_some.mp hx
  have hle : hi ≤ (l.eraseIdx di).length := by
    rw [List.length_eraseIdx]
    simp only [hdi, if_true]
    omega
  rw [insertIdx_eq_take_cons_drop _ _ hle]
  refine ⟨(l.eraseIdx di).take hi,
    (l.take di).drop (hi + 1) ++ l.drop (di + 1), ?_⟩
  have hlen_take : (l.take di).length = di := by
    rw [List.length_take]
    exact min_eq_left (le_of_lt hdi)
  have hlt' : hi < (l.take di).length := by omega
  have h1 : (l.take di).drop hi = l[hi] :: (l.take di).drop (hi + 1) := by
    rw [← List.get_drop_eq_drop _ hi hlt', List.getElem_take]
  rw [List.eraseIdx_eq_take_drop_succ, List.drop_append_eq_append_drop,
    hlen_take, Nat.sub_eq_zero_of_le (le_of_lt hlt), List.drop_zero, h1]
  simp

theorem splice_down {α : Type} {l : List α} {di hi : Nat} {x : α}
    (hx : l[di]? = some x) (hhi : hi < l.length) (hlt : di < hi) :
    ∃ p q, (l.eraseIdx di).insertIdx hi x = p ++ l[hi] :: x :: q := by
  obtain ⟨hdi, -⟩ := List.getElem?_eq_some.mp hx
  have hsplit : l = l.take hi ++ l[hi] :: l.drop (hi + 1) := by
    conv_lhs => rw [← List.take_append_drop hi l,
      ← List.get_drop_eq_drop l hi hhi]
  have hlen_take : (l.take hi).length = hi := by
    rw [List.length_take]
    exact min_eq_left (le_of_lt hhi)
  have hE : l.eraseIdx di =
      (l.take hi).eraseIdx di ++ l[hi] :: l.drop (hi + 1) := by
    conv_lhs => rw [hsplit]
    exact List.eraseIdx_append_of_lt_length (by omega) _
  have hlenA : ((l.take hi).eraseIdx di).length = hi - 1 := by
    rw [List.length_eraseIdx]
    simp only [hlen_take]
    simp [hlt]
  have hle : hi ≤ (l.eraseIdx di).length := by
    rw [List.length_eraseIdx]
    simp only [hdi, if_true]
    omega
  refine ⟨(l.take hi).eraseIdx di, l.drop (hi + 1), ?_⟩
  have hA_take : List.take hi ((l.take hi).eraseIdx di) =
      (l.take hi).eraseIdx di :=
    List.take_of_length_le (by omega)
  have hA_drop : List.drop hi ((l.take hi).eraseIdx di) = ([] : List α) :=
    List.drop_eq_nil_of_le (by omega)
  rw [insertIdx_eq_take_cons_drop _ _ hle, hE,
    List.take_append_eq_append_take, List.drop_append_eq_append_drop,
    hlenA, hA_take, hA_drop]
  have h1 : hi - (hi - 1) = 1 := by omega
  rw [h1]
  have h2 : List.take 1 (List.drop hi l) = [l[hi]] := by
    rw [← List.get_drop_eq_drop l hi hhi]
    rfl
  simp [h2]

/-- Reusable sample item for concrete counterexamples and witnesses. -/
def sampleItem (i : String) : ShoppingItem :=
  { id := i, circle := i, eventDate := "1日目", block := "A", number := "01",
    title := "t", price := 100, purchaseStatus := PurchaseStatus.None,
    remarks := "" }

/-- C3 as stated is false on the code: with an empty selection, dragging
item "a" (index 0) onto item "c" (index 2) in `[a, b, c]` yields
`[b, c, a]`, where the dragged item lands immediately AFTER the target,
not immediately before it: the hover index is computed before the
dragged item is spliced out. -/
theorem c3_counterexample :
    adjacentIn ((handleMoveItemExecute [] "a" "c"
      [sampleItem "a", sampleItem "b", sampleItem "c"]).map
        (fun it => it.id)) "a" "c" = false ∧
    (handleMoveItemExecute [] "a" "c"
      [sampleItem "a", sampleItem "b", sampleItem "c"]).map
        (fun it => it.id) = ["b", "c", "a"] := by
  constructor
  · decide
  · decide

/-- C3 corrected: when the selection does not contain the dragged id,
`handleMoveItem` (both branches) removes the dragged element and
re-inserts it at the target's original index; the dragged id therefore
ends up immediately before the target id when dragging toward the front
(hover index below drag index) and immediately after it when dragging
toward the back. -/
theorem c3_single_move_position (selected : List String)
    (dragId hoverId : String) (items : List ShoppingItem)
    (dayItems : List String) :
    (∀ di hi, selected.contains dragId = false →
      items.findIdx? (fun it => it.id == dragId) = some di →
      items.findIdx? (fun it => it.id == hoverId) = some hi →
      (hi < di → adjacentIn ((handleMoveItemExecute selected dragId hoverId
        items).map (fun it => it.id)) dragId hoverId = true) ∧
      (di < hi → adjacentIn ((handleMoveItemExecute selected dragId hoverId
        items).map (fun it => it.id)) hoverId dragId = true)) ∧
    (∀ di hi, selected.contains dragId = false →
      dayItems.findIdx? (fun i => i == dragId) = some di →
      dayItems.findIdx? (fun i => i == hoverId) = some hi →
      (hi < di → adjacentIn (handleMoveItemEdit selected dragId hoverId
        dayItems) dragId hoverId = true) ∧
      (di < hi → adjacentIn (handleMoveItemEdit selected dragId hoverId
        dayItems) hoverId dragId = true)) := by
  constructor
  · intro di hi hsel hd hh
    have hdi : di < items.length := (List.findIdx?_eq_some_iff_findIdx_eq.mp hd).1
    have hhi : hi < items.length := (List.findIdx?_eq_some_iff_findIdx_eq.mp hh).1
    have hkeyd : items[di].id = dragId := by
      have := findIdx?_prop hd hdi
      simpa using this
    have hkeyh : items[hi].id = hoverId := by
      have := findIdx?_prop hh hhi
      simpa using this
    have hres : handleMoveItemExecute selected dragId hoverId items =
        (items.eraseIdx di).insertIdx hi items[di] := by
      unfold handleMoveItemExecute
      rw [hd, hh]
      simp only [hsel, Bool.false_eq_true, if_false,
        List.getElem?_eq_getElem hdi]
    constructor
    · intro hlt
      obtain ⟨p, q, hpq⟩ :=
        splice_up (List.getElem?_eq_getElem hdi) hhi hlt
      rw [hres, hpq]
      simp only [List.map_append, List.map_cons, hkeyd, hkeyh]
      exact adjacentIn_append _ _ _ _
    · intro hlt
      obtain ⟨p, q, hpq⟩ :=
        splice_down (List.getElem?_eq_getElem hdi) hhi hlt
      rw [hres, hpq]
      simp only [List.map_append, List.map_cons, hkeyd, hkeyh]
      exact adjacentIn_append _ _ _ _
  · intro di hi hsel hd hh
    have hdi : di < dayItems.length := (List.findIdx?_eq_some_iff_findIdx_eq.mp hd).1
    have hhi : hi < dayItems.length := (List.findIdx?_eq_some_iff_findIdx_eq.mp hh).1
    have hkeyd : dayItems[di] = dragId := by
      have := findIdx?_prop hd hdi
      simpa using this
    have hkeyh : dayItems[hi] = hoverId := by
      have := findIdx?_prop hh hhi
      simpa using this
    have hres : handleMoveItemEdit selected dragId hoverId dayItems =
        (dayItems.eraseIdx di).insertIdx hi dayItems[di] := by
      unfold handleMoveItemEdit
      simp only [hsel, Bool.false_eq_true, if_false]
      rw [hd, hh]
      simp only [List.getElem?_eq_getElem hdi]
    constructor
    · intro hlt
      obtain ⟨p, q, hpq⟩ :=
        splice_up (List.getElem?_eq_getElem hdi) hhi hlt
      rw [hres, hpq, hkeyd, hkeyh]
      exact adjacentIn_append _ _ _ _
    · intro hlt
      obtain ⟨p, q, hpq⟩ :=
        splice_down (List.getElem?_eq_getElem hdi) hhi hlt
      rw [hres, hpq, hkeyd, hkeyh]
      exact adjacentIn_append _ _ _ _

/-- Witness for C3's corrected statement: dragging "c" onto "a" in
`[a, b, c]` with no selection puts "c" immediately before "a"; same for
the edit branch on `["a", "b"]`. -/
theorem c3_single_move_position_witness :
    adjacentIn ((handleMoveItemExecute [] "c" "a"
      [sampleItem "a", sampleItem "b", sampleItem "c"]).map
        (fun it => it.id)) "c" "a" = true ∧
    adjacentIn (handleMoveItemEdit [] "b" "a" ["a", "b"]) "b" "a" = true :=
  ⟨((c3_single_move_position [] "c" "a"
      [sampleItem "a", sampleItem "b", sampleItem "c"] ["a", "b"]).1 2 0
      (by decide) (by decide) (by decide)).1 (by decide),
   ((c3_single_move_position [] "b" "a"
      [sampleItem "a", sampleItem "b", sampleItem "c"] ["a", "b"]).2 1 0
      (by decide) (by decide) (by decide)).1 (by decide)⟩

/-- C4: with the dragged id in the selection, both branches of
`handleMoveItem` run the block move: the selected subset is extracted in
its original relative order (`l.filter`), removed, and re-inserted
immediately before the target's position in the remaining list; if the
target is not found in the remaining list the collection is returned
unchanged. -/
theorem c4_block_move (selected : List String) (dragId hoverId : String)
    (items : List ShoppingItem) (dayItems : List String)
    (hsel : selected.contains dragId = true) :
    (∀ di hi, items.findIdx? (fun it => it.id == dragId) = some di →
      items.findIdx? (fun it => it.id == hoverId) = some hi →
      handleMoveItemExecute selected dragId hoverId items =
        blockMove (fun it => it.id) selected hoverId items) ∧
    (handleMoveItemEdit selected dragId hoverId dayItems =
      blockMove (fun i => i) selected hoverId dayItems) ∧
    (∀ (α : Type) (key : α → String) (l : List α),
      (∀ x ∈ l.filter (fun x => !(selected.contains (key x))),
        key x ≠ hoverId) →
      blockMove key selected hoverId l = l) ∧
    (∀ (α : Type) (key : α → String) (l : List α) (ti : Nat),
      (l.filter (fun x => !(selected.contains (key x)))).findIdx?
        (fun x => key x == hoverId) = some ti →
      ∃ r1 hItem r2,
        l.filter (fun x => !(selected.contains (key x))) = r1 ++ hItem :: r2 ∧
        key hItem = hoverId ∧ (∀ z ∈ r1, key z ≠ hoverId) ∧
        blockMove key selected hoverId l =
          r1 ++ l.filter (fun x => selected.contains (key x)) ++
            hItem :: r2) := by
  refine ⟨?_, ?_, ?_, ?_⟩
  · intro di hi hd hh
    unfold handleMoveItemExecute
    rw [hd, hh]
    exact if_pos hsel
  · unfold handleMoveItemEdit
    exact if_pos hsel
  · intro α key l hnone
    unfold blockMove
    have : (l.filter (fun x => !(selected.contains (key x)))).findIdx?
        (fun x => key x == hoverId) = none := by
      rw [List.findIdx?_eq_none_iff]
      intro x hx
      exact beq_eq_false_iff_ne.mpr (hnone x hx)
    rw [this]
  · intro α key l ti hti
    obtain ⟨hlt, hfi⟩ := List.findIdx?_eq_some_iff_findIdx_eq.mp hti
    refine ⟨(l.filter (fun x => !(selected.contains (key x)))).take ti,
      (l.filter (fun x => !(selected.contains (key x))))[ti],
      (l.filter (fun x => !(selected.contains (key x)))).drop (ti + 1),
      ?_, ?_, ?_, ?_⟩
    · conv_lhs => rw [← List.take_append_drop ti
        (l.filter (fun x => !(selected.contains (key x)))),
        ← List.get_drop_eq_drop _ ti hlt]
    · have := findIdx?_prop hti hlt
      simpa using this
    · intro z hz
      obtain ⟨j, hj, hz'⟩ := List.mem_iff_getElem.mp hz
      have hjlt : j < ti := by
        have := hj
        rw [List.length_take] at this
        omega
      have hjF : j <
          (l.filter (fun x => !(selected.contains (key x)))).length := by
        omega
      have hr : z = (l.filter (fun x => !(selected.contains (key x))))[j] := by
        rw [← hz']
        exact List.getElem_take _
      have hfalse := @List.not_of_lt_findIdx _ (fun x => key x == hoverId)
        (l.filter (fun x => !(selected.contains (key x)))) j (by omega)
      rw [hr]
      intro hcontra
      rw [hcontra] at hfalse
      simp at hfalse
    · unfold blockMove
      simp only [hti]
      conv_lhs => rw [← List.get_drop_eq_drop _ ti hlt]

/-- Witness for C4: a concrete run of each conjunct that carries a
hypothesis. -/
theorem c4_block_move_witness :
    handleMoveItemExecute ["a", "c"] "a" "b"
      [sampleItem "a", sampleItem "b", sampleItem "c"] =
      blockMove (fun it => it.id) ["a", "c"] "b"
        [sampleItem "a", sampleItem "b", sampleItem "c"] ∧
    blockMove (fun i => i) ["a", "c"] "a" ["a", "c"] = ["a", "c"] :=
  ⟨(c4_block_move ["a", "c"] "a" "b"
      [sampleItem "a", sampleItem "b", sampleItem "c"] [] (by decide)).1
      0 1 (by decide) (by decide),
   (c4_block_move ["a", "c"] "a" "a"
      [sampleItem "a", sampleItem "b", sampleItem "c"] [] (by decide)).2.2.1
      String (fun i => i) ["a", "c"] (by decide)⟩

/-- C9 as stated is false on the code: in the edit-mode branch, a stale
dragged id that is still in the selection set does not make the move a
no-op — the remaining selected items are still moved.  Here the day list
is `["t", "b"]`, the dragged id "d" is not present (stale), yet the
selected item "b" is moved in front of "t". -/
theorem c9_counterexample :
    handleMoveItemEdit ["d", "b"] "d" "t" ["t", "b"] = ["b", "t"] ∧
    ("d" ∈ (["t", "b"] : List String)) = False := by
  constructor
  · decide
  · simp

/-- C9 corrected: a stale target id is always a silent no-op in both
branches of `handleMoveItem`; a stale dragged id is a silent no-op in
the execute-mode branch always, and in the edit-mode branch whenever
the selection does not contain the dragged id; `handleUpdateItem` with
an id absent from the collection is a silent no-op.  (The exception is
the edit-mode block branch with a stale dragged id inside the
selection, see the counterexample.) -/
theorem c9_stale_id_noop (selected : List String) (dragId hoverId : String)
    (items : List ShoppingItem) (dayItems : List String)
    (updatedItem : ShoppingItem) :
    ((∀ it ∈ items, it.id ≠ dragId) →
      handleMoveItemExecute selected dragId hoverId items = items) ∧
    ((∀ it ∈ items, it.id ≠ hoverId) →
      handleMoveItemExecute selected dragId hoverId items = items) ∧
    (hoverId ∉ dayItems →
      handleMoveItemEdit selected dragId hoverId dayItems = dayItems) ∧
    (dragId ∉ dayItems → selected.contains dragId = false →
      handleMoveItemEdit selected dragId hoverId dayItems = dayItems) ∧
    ((∀ it ∈ items, it.id ≠ updatedItem.id) →
      handleUpdateItem updatedItem items = items) := by
  refine ⟨?_, ?_, ?_, ?_, ?_⟩
  · intro hstale
    unfold handleMoveItemExecute
    have : items.findIdx? (fun it => it.id == dragId) = none := by
      rw [List.findIdx?_eq_none_iff]
      intro x hx
      exact beq_eq_false_iff_ne.mpr (hstale x hx)
    rw [this]
  · intro hstale
    unfold handleMoveItemExecute
    have : items.findIdx? (fun it => it.id == hoverId) = none := by
      rw [List.findIdx?_eq_none_iff]
      intro x hx
      exact beq_eq_false_iff_ne.mpr (hstale x hx)
    rw [this]
    cases items.findIdx? (fun it => it.id == dragId) <;> rfl
  · intro hstale
    unfold handleMoveItemEdit
    have hnone : dayItems.findIdx? (fun i => i == hoverId) = none := by
      rw [List.findIdx?_eq_none_iff]
      intro x hx
      exact beq_eq_false_iff_ne.mpr (fun h => hstale (h ▸ hx))
    by_cases hsel : selected.contains dragId
    · rw [if_pos hsel]
      unfold blockMove
      have : (dayItems.filter
          (fun x => !(selected.contains x))).findIdx?
          (fun x => x == hoverId) = none := by
        rw [List.findIdx?_eq_none_iff]
        intro x hx
        exact beq_eq_false_iff_ne.mpr
          (fun h => hstale (h ▸ (List.mem_filter.mp hx).1))
      rw [this]
    · rw [if_neg hsel]
      rw [hnone]
      cases dayItems.findIdx? (fun i => i == dragId) <;> rfl
  · intro hstale hsel
    unfold handleMoveItemEdit
    rw [if_neg (by rw [hsel]; exact Bool.false_ne_true)]
    have : dayItems.findIdx? (fun i => i == dragId) = none := by
      rw [List.findIdx?_eq_none_iff]
      intro x hx
      exact beq_eq_false_iff_ne.mpr (fun h => hstale (h ▸ hx))
    rw [this]
  · intro hstale
    unfold handleUpdateItem
    have : ∀ it ∈ items,
        (if it.id = updatedItem.id then updatedItem else it) = it := by
      intro it hit
      rw [if_neg (hstale it hit)]
    exact (List.map_congr_left this).trans (List.map_id' items)

/-- Witness for C9's corrected statement at concrete inputs. -/
theorem c9_stale_id_noop_witness :
    handleMoveItemExecute [] "z" "a" [sampleItem "a"] = [sampleItem "a"] ∧
    handleMoveItemEdit [] "z" "a" ["a"] = ["a"] ∧
    handleUpdateItem (sampleItem "z") [sampleItem "a"] = [sampleItem "a"] :=
  ⟨(c9_stale_id_noop [] "z" "a" [sampleItem "a"] ["a"] (sampleItem "z")).1
      (by decide),
   (c9_stale_id_noop [] "z" "a" [sampleItem "a"] ["a"] (sampleItem "z")).2.2.2.1
      (by decide) (by decide),
   (c9_stale_id_noop [] "z" "a" [sampleItem "a"] ["a"] (sampleItem "z")).2.2.2.2
      (by decide)⟩

/-! ## Partition membership proofs (C8) -/

theorem foldl_setAdd_spec (ids : List String) : ∀ acc : List String,
    ∃ T, ids.foldl setAdd acc = acc ++ T ∧ T.Sublist ids ∧ T.Nodup ∧
      (∀ x, x ∈ T ↔ (x ∈ ids ∧ x ∉ acc)) := by
  induction ids with
  | nil =>
    intro acc
    exact ⟨[], by simp, by simp, by simp, by simp⟩
  | cons i ids ih =>
    intro acc
    by_cases hmem : i ∈ acc
    · obtain ⟨T, h1, h2, h3, h4⟩ := ih acc
      refine ⟨T, ?_, h2.cons i, h3, ?_⟩
      · rw [List.foldl_cons]
        rw [show setAdd acc i = acc from if_pos hmem]
        exact h1
      · intro x
        rw [h4]
        constructor
        · rintro ⟨hx, hxa⟩
          exact ⟨List.mem_cons_of_mem i hx, hxa⟩
        · rintro ⟨hx, hxa⟩
          rcases List.mem_cons.mp hx with rfl | hx'
          · exact absurd hmem hxa
          · exact ⟨hx', hxa⟩
    · obtain ⟨T, h1, h2, h3, h4⟩ := ih (acc ++ [i])
      have hT_ne : ∀ x ∈ T, x ≠ i := by
        intro x hx hcontra
        have := ((h4 x).mp hx).2
        exact this (by simp [hcontra])
      refine ⟨i :: T, ?_, h2.cons₂ i, ?_, ?_⟩
      · rw [List.foldl_cons]
        rw [show setAdd acc i = acc ++ [i] from if_neg hmem]
        rw [h1, List.append_assoc]
        rfl
      · exact List.nodup_cons.mpr ⟨fun hc => (hT_ne i hc) rfl, h3⟩
      · intro x
        constructor
        · intro hx
          rcases List.mem_cons.mp hx with rfl | hx'
          · exact ⟨List.mem_cons_self _ _, hmem⟩
          · obtain ⟨ha, hb⟩ := (h4 x).mp hx'
            exact ⟨List.mem_cons_of_mem i ha, fun hc => hb (by simp [hc])⟩
        · rintro ⟨hx, hxa⟩
          rcases List.mem_cons.mp hx with rfl | hx'
          · exact List.mem_cons_self _ _
          · by_cases hxi : x = i
            · subst hxi
              exact List.mem_cons_self _ _
            · refine List.mem_cons_of_mem i ((h4 x).mpr ⟨hx', ?_⟩)
              simp [hxa, hxi]

theorem foldl_setAdd_of_nodup : ∀ (l acc : List String),
    (∀ x ∈ l, x ∉ acc) → l.Nodup → l.foldl setAdd acc = acc ++ l := by
  intro l
  induction l with
  | nil => intro acc _ _; simp
  | cons i l ih =>
    intro acc hdisj hnodup
    rw [List.foldl_cons,
      show setAdd acc i = acc ++ [i] from
        if_neg (hdisj i (List.mem_cons_self _ _)),
      ih (acc ++ [i]) ?_ (List.nodup_cons.mp hnodup).2,
      List.append_assoc]
    · rfl
    · intro x hx
      simp only [List.mem_append, List.mem_singleton]
      rintro (hc | rfl)
      · exact hdisj x (List.mem_cons_of_mem i hx) hc
      · exact (List.nodup_cons.mp hnodup).1 hx

/-- C8: for a duplicate-free active list (the invariant every writer of
the partition maintains), `handleMoveToExecuteColumn` appends exactly
the ids not already present, each at most once, in the order given
(`T` is a sublist of `itemIds`), at the end of the list; already present
ids are ignored and the existing list is left fully intact as the
prefix. -/
theorem c8_addToActive (dayItems itemIds : List String)
    (hnodup : dayItems.Nodup) :
    ∃ T, handleMoveToExecuteColumn dayItems itemIds = dayItems ++ T ∧
      T.Sublist itemIds ∧ T.Nodup ∧
      (∀ x, x ∈ T ↔ (x ∈ itemIds ∧ x ∉ dayItems)) := by
  unfold handleMoveToExecuteColumn
  rw [foldl_setAdd_of_nodup dayItems [] (by simp) hnodup, List.nil_append]
  exact foldl_setAdd_spec itemIds dayItems

/-- Witness for C8 at a concrete input. -/
theorem c8_addToActive_witness :
    ∃ T, handleMoveToExecuteColumn ["p", "q"] ["q", "r", "r", "s"] =
      ["p", "q"] ++ T ∧ T.Sublist ["q", "r", "r", "s"] ∧ T.Nodup ∧
      (∀ x, x ∈ T ↔ (x ∈ (["q", "r", "r", "s"] : List String) ∧
        x ∉ (["p", "q"] : List String))) :=
  c8_addToActive ["p", "q"] ["q", "r", "r", "s"] (by decide)

/-- C7: per-row parsing.  A row (given as its split cell list) is
skipped exactly when one of the four mandatory cells at indices 12-15 is
missing or blank after trimming; otherwise the candidate item takes
circle from index 12, eventDate from 13, block from 14, number from 15,
title from 16, price from 17 and remarks from 22. -/
theorem c7_row_parsing (cells : List String) :
    (buildSheetItem cells = none ↔
      (trimString (cells.getD 12 "") = "" ∨ trimString (cells.getD 13 "") = "" ∨
       trimString (cells.getD 14 "") = "" ∨ trimString (cells.getD 15 "") = "")) ∧
    (trimString (cells.getD 12 "") ≠ "" → trimString (cells.getD 13 "") ≠ "" →
     trimString (cells.getD 14 "") ≠ "" → trimString (cells.getD 15 "") ≠ "" →
      buildSheetItem cells = some
        { circle := trimString (cells.getD 12 "")
          eventDate := trimString (cells.getD 13 "")
          block := trimString (cells.getD 14 "")
          number := trimString (cells.getD 15 "")
          title := trimString (cells.getD 16 "")
          price := parsePrice cells[17]?
          remarks := trimString (cells.getD 22 "") }) := by
  by_cases hc : (trimString (cells.getD 12 "") = "" ∨
      trimString (cells.getD 13 "") = "" ∨
      trimString (cells.getD 14 "") = "" ∨ trimString (cells.getD 15 "") = "")
  · constructor
    · rw [iff_true_intro hc, iff_true]
      unfold buildSheetItem
      rw [if_pos hc]
    · intro h12 h13 h14 h15
      rcases hc with h | h | h | h
      · exact absurd h h12
      · exact absurd h h13
      · exact absurd h h14
      · exact absurd h h15
  · constructor
    · rw [iff_false_intro hc, iff_false]
      unfold buildSheetItem
      rw [if_neg hc]
      exact Option.noConfusion
    · intro h12 h13 h14 h15
      unfold buildSheetItem
      rw [if_neg hc]

/-- Witness for C7 at a concrete row. -/
theorem c7_row_parsing_witness :
    buildSheetItem (List.replicate 12 "" ++
      [" A ", "1日目", "B1", "01", "T", "1,234yen", "", "", "", "", "R "]) =
    some { circle := "A", eventDate := "1日目", block := "B1",
           number := "01", title := "T", price := 1234, remarks := "R" } := by
  have h := (c7_row_parsing (List.replicate 12 "" ++
    [" A ", "1日目", "B1", "01", "T", "1,234yen", "", "", "", "", "R "])).2
    (by decide) (by decide) (by decide) (by decide)
  rw [h]
  decide

/-- C5: a fetched row agreeing with a current item on the loose key
`(circle, eventDate, block, number)` but with a different title yields
exactly one update for that item — id and purchase status carried over,
title, price and remarks replaced — and no delete and no add. -/
theorem c5_title_tier (c : ShoppingItem) (r : SheetItem)
    (hkey : getItemKeyWithoutTitle c.fields = getItemKeyWithoutTitle r)
    (htitle : c.title ≠ r.title) :
    computeUpdateData [c] [r] =
      { itemsToDelete := [],
        itemsToUpdate :=
          [{ c with title := r.title, price := r.price, remarks := r.remarks }],
        itemsToAdd := [] } := by
  have hfull : getItemKey c.fields ≠ getItemKey r := by
    intro h
    exact htitle (congrArg (fun t => t.2.2.2.2) h)
  unfold computeUpdateData rowUpdate rowIsAdd mapHas itemFullKey itemLooseKey
  simp [mapGetLast, hfull, hkey]

/-- Witness for C5 at a concrete item and row. -/
theorem c5_title_tier_witness :
    computeUpdateData [sampleItem "1"]
      [{ circle := "1", eventDate := "1日目", block := "A", number := "01",
         title := "new", price := 200, remarks := "rr" }] =
      { itemsToDelete := [],
        itemsToUpdate :=
          [{ sampleItem "1" with title := "new", price := 200, remarks := "rr" }],
        itemsToAdd := [] } :=
  c5_title_tier (sampleItem "1")
    { circle := "1", eventDate := "1日目", block := "A", number := "01",
      title := "new", price := 200, remarks := "rr" }
    (by decide) (by decide)

/-- C10: the two column projections filter by day asymmetrically: the
candidate column holds exactly the current day's items whose ids are not
in the day's active list, while the active column holds every item of
the whole collection whose id is in the active list — with no eventDate
filter, so an item of the other day still appears in the active column
whenever its id is in the partition. -/
theorem c10_projection_asymmetry (dayTag : String) (executeIds : List String)
    (items : List ShoppingItem)
    (hnodup : (items.map (fun it => it.id)).Nodup) :
    (∀ it, it ∈ candidateColumnItems dayTag executeIds items ↔
      (it ∈ items ∧ includesStr it.eventDate dayTag = true ∧
        it.id ∉ executeIds)) ∧
    (∀ it, it ∈ executeColumnItems executeIds items ↔
      (it ∈ items ∧ it.id ∈ executeIds)) ∧
    (∀ it ∈ items, it.id ∈ executeIds →
      includesStr it.eventDate dayTag = false →
      (it ∈ executeColumnItems executeIds items ∧
       it ∉ candidateColumnItems dayTag executeIds items)) := by
  have huniq : ∀ x ∈ items, ∀ y ∈ items,
      (fun it : ShoppingItem => it.id) x = (fun it : ShoppingItem => it.id) y →
      x = y := List.inj_on_of_nodup_map hnodup
  have hcand : ∀ it, it ∈ candidateColumnItems dayTag executeIds items ↔
      (it ∈ items ∧ includesStr it.eventDate dayTag = true ∧
        it.id ∉ executeIds) := by
    intro it
    unfold candidateColumnItems dayItemsFor
    simp [List.mem_filter, and_assoc]
    exact fun _ => and_comm
  have hexec : ∀ it, it ∈ executeColumnItems executeIds items ↔
      (it ∈ items ∧ it.id ∈ executeIds) := by
    intro it
    unfold executeColumnItems
    rw [List.mem_filterMap]
    constructor
    · rintro ⟨i, hi, hsome⟩
      obtain ⟨hmem, hid⟩ := mapGetLast_mem hsome
      exact ⟨hmem, hid ▸ hi⟩
    · rintro ⟨hmem, hid⟩
      exact ⟨it.id, hid,
        mapGetLast_eq_of_unique hmem rfl
          (fun z hz hkz => huniq z hz it hmem hkz)⟩
  refine ⟨hcand, hexec, ?_⟩
  intro it hmem hid hday
  refine ⟨(hexec it).mpr ⟨hmem, hid⟩, ?_⟩
  intro hc
  have := ((hcand it).mp hc).2.1
  rw [hday] at this
  exact Bool.false_ne_true this

/-- Witness for C10: a day-2 item appears in the day-1 active column
because its id is in the day-1 partition. -/
theorem c10_projection_asymmetry_witness :
    ({ sampleItem "x" with eventDate := "2日目" } ∈
      executeColumnItems ["x"] [{ sampleItem "x" with eventDate := "2日目" }] ∧
     { sampleItem "x" with eventDate := "2日目" } ∉
      candidateColumnItems "1日目" ["x"]
        [{ sampleItem "x" with eventDate := "2日目" }]) :=
  (c10_projection_asymmetry "1日目" ["x"]
      [{ sampleItem "x" with eventDate := "2日目" }] (by decide)).2.2
    { sampleItem "x" with eventDate := "2日目" } (by decide) (by decide)
    (by decide)

/-! ## Confirm semantics (C2) -/

/-- A change-set holding a single add, for the C2 scenarios. -/
def sampleChangeSet : UpdateData :=
  { itemsToDelete := [], itemsToUpdate := [],
    itemsToAdd := [{ circle := "c", eventDate := "1日目", block := "A",
                     number := "01", title := "T", price := 5,
                     remarks := "" }] }

/-- C2 as stated is false on the code: confirming a change-set whose
event is no longer present in the store does not leave the store
unchanged — `prev[eventName] || []` starts from the empty list and the
spread re-creates the event entry, containing the sorted-inserted add
items. -/
theorem c2_counterexample :
    (handleConfirmUpdate (fun _ => "n") "ev" sampleChangeSet
      (fun _ => none) (fun _ => none)).1 "ev" ≠ none := by
  decide

/-- C2 corrected: `handleConfirmUpdate` always applies the three
sub-steps (deletes, then updates by id, then sorted inserts of the adds)
to the event's current — possibly empty — list in one transition, prunes
the deleted ids from both day partitions when the event has partitions,
and touches no other event.  When the event is absent at confirm time
the confirm is NOT a no-op: the event entry is created containing
exactly the sorted-inserted add items (the delete and update sub-steps
act on the empty list), while the partitions stay unchanged. -/
theorem c2_confirm_application (freshIds : Nat → String) (eventName : String)
    (d : UpdateData) (eventLists : String → Option (List ShoppingItem))
    (executeModeItems : String → Option (List String × List String)) :
    ((handleConfirmUpdate freshIds eventName d eventLists
        executeModeItems).1 eventName =
      some (applyUpdateData freshIds ((eventLists eventName).getD []) d)) ∧
    (∀ n, n ≠ eventName →
      (handleConfirmUpdate freshIds eventName d eventLists
          executeModeItems).1 n = eventLists n ∧
      (handleConfirmUpdate freshIds eventName d eventLists
          executeModeItems).2 n = executeModeItems n) ∧
    (executeModeItems eventName = none →
      (handleConfirmUpdate freshIds eventName d eventLists
          executeModeItems).2 eventName = none) ∧
    (∀ day1 day2, executeModeItems eventName = some (day1, day2) →
      (handleConfirmUpdate freshIds eventName d eventLists
          executeModeItems).2 eventName =
        some (day1.filter (fun i =>
                !((d.itemsToDelete.map (fun item => item.id)).contains i)),
              day2.filter (fun i =>
                !((d.itemsToDelete.map (fun item => item.id)).contains i)))) ∧
    (eventLists eventName = none →
      (handleConfirmUpdate freshIds eventName d eventLists
          executeModeItems).1 eventName =
        some (insertAdds freshIds 0 d.itemsToAdd [])) := by
  refine ⟨?_, ?_, ?_, ?_, ?_⟩
  · unfold handleConfirmUpdate
    simp
  · intro n hn
    unfold handleConfirmUpdate
    constructor
    · simp [hn]
    · simp [hn]
  · intro habs
    unfold handleConfirmUpdate
    simp [habs]
  · intro day1 day2 hsome
    unfold handleConfirmUpdate
    simp [hsome]
  · intro habs
    unfold handleConfirmUpdate
    simp [habs, applyUpdateData]

/-- Witness for C2's corrected statement at a concrete store. -/
theorem c2_confirm_application_witness :
    (handleConfirmUpdate (fun _ => "n") "ev" sampleChangeSet
      (fun _ => none) (fun _ => none)).1 "ev" =
      some (insertAdds (fun _ => "n") 0 sampleChangeSet.itemsToAdd []) :=
  (c2_confirm_application (fun _ => "n") "ev" sampleChangeSet
      (fun _ => none) (fun _ => none)).2.2.2.2 rfl

/-! ## Reconciliation idempotence (C1): infrastructure -/

theorem mem_insertItemSorted {x n : ShoppingItem} {l : List ShoppingItem} :
    x ∈ insertItemSorted l n ↔ x ∈ l ∨ x = n := by
  induction l with
  | nil => simp [insertItemSorted]
  | cons a t ih =>
    unfold insertItemSorted
    by_cases hc : compareItems n a ≠ Ordering.gt
    · rw [if_pos hc]
      simp only [List.mem_cons]
      tauto
    · rw [if_neg hc]
      simp only [List.mem_cons, ih]
      tauto

theorem mapGetLast_cons_some {α κ : Type} [DecidableEq κ] {key : α → κ}
    {k : κ} {x y : α} {xs : List α} (h : mapGetLast key k xs = some y) :
    mapGetLast key k (x :: xs) = some y := by
  simp only [mapGetLast, h]

theorem mapGetLast_cons_none {α κ : Type} [DecidableEq κ] {key : α → κ}
    {k : κ} {x : α} {xs : List α} (h : mapGetLast key k xs = none) :
    mapGetLast key k (x :: xs) = if key x = k then some x else none := by
  simp only [mapGetLast, h]

theorem mapGetLast_insertItemSorted {κ : Type} {key : ShoppingItem → κ}
    [DecidableEq κ] {k : κ} {n : ShoppingItem} (hne : key n ≠ k)
    (l : List ShoppingItem) :
    mapGetLast key k (insertItemSorted l n) = mapGetLast key k l := by
  induction l with
  | nil => simp [insertItemSorted, mapGetLast, hne]
  | cons a t ih =>
    unfold insertItemSorted
    by_cases hc : compareItems n a ≠ Ordering.gt
    · rw [if_pos hc]
      cases hm : mapGetLast key k (a :: t) with
      | some y => exact mapGetLast_cons_some hm
      | none => rw [mapGetLast_cons_none hm, if_neg hne]
    · rw [if_neg hc]
      cases hm : mapGetLast key k t with
      | some y =>
        rw [mapGetLast_cons_some (ih.trans hm), mapGetLast_cons_some hm]
      | none =>
        rw [mapGetLast_cons_none (ih.trans hm), mapGetLast_cons_none hm]

theorem mem_insertAdds_of_mem {freshIds : Nat → String} {x : ShoppingItem} :
    ∀ {l : List SheetItem} {i : Nat} {acc : List ShoppingItem},
    x ∈ acc → x ∈ insertAdds freshIds i l acc := by
  intro l
  induction l with
  | nil => intro i acc h; exact h
  | cons s rest ih =>
    intro i acc h
    exact ih (mem_insertItemSorted.mpr (Or.inl h))

theorem mem_insertAdds_fwd {freshIds : Nat → String} {x : ShoppingItem} :
    ∀ {l : List SheetItem} {i : Nat} {acc : List ShoppingItem},
    x ∈ insertAdds freshIds i l acc →
      (x ∈ acc ∨ ∃ s ∈ l, ∃ j, x = mkShoppingItem (freshIds j) s) := by
  intro l
  induction l with
  | nil =>
    intro i acc h
    exact Or.inl h
  | cons s rest ih =>
    intro i acc h
    rcases ih h with hacc | ⟨s', hs', j, rfl⟩
    · rcases mem_insertItemSorted.mp hacc with h' | h'
      · exact Or.inl h'
      · exact Or.inr ⟨s, List.mem_cons_self _ _, i, h'⟩
    · exact Or.inr ⟨s', List.mem_cons_of_mem _ hs', j, rfl⟩

theorem insertAdds_exists_mem {freshIds : Nat → String} :
    ∀ {l : List SheetItem} {s : SheetItem} {i : Nat} {acc : List ShoppingItem},
    s ∈ l → ∃ j, mkShoppingItem (freshIds j) s ∈ insertAdds freshIds i l acc := by
  intro l
  induction l with
  | nil =>
    intro s i acc h
    cases h
  | cons a rest ih =>
    intro s i acc h
    rcases List.mem_cons.mp h with rfl | h'
    · refine ⟨i, ?_⟩
      show mkShoppingItem (freshIds i) s ∈
        insertAdds freshIds (i + 1) rest
          (insertItemSorted acc (mkShoppingItem (freshIds i) s))
      exact mem_insertAdds_of_mem (mem_insertItemSorted.mpr (Or.inr rfl))
    · exact ih h'

theorem mapGetLast_insertAdds {key : ShoppingItem → κ} [DecidableEq κ] {k : κ}
    {freshIds : Nat → String} :
    ∀ {l : List SheetItem} {i : Nat} {acc : List ShoppingItem},
    (∀ s ∈ l, ∀ j, key (mkShoppingItem (freshIds j) s) ≠ k) →
    mapGetLast key k (insertAdds freshIds i l acc) = mapGetLast key k acc := by
  intro l
  induction l with
  | nil => intro i acc _; rfl
  | cons s rest ih =>
    intro i acc hne
    unfold insertAdds
    rw [ih (fun s' hs' => hne s' (List.mem_cons_of_mem _ hs')),
      mapGetLast_insertItemSorted (hne s (List.mem_cons_self _ _) i)]

theorem mapGetLast_map {α κ : Type} {key : α → κ} [DecidableEq κ] {k : κ}
    {f : α → α} : ∀ {l : List α}, (∀ x ∈ l, (key (f x) = k ↔ key x = k)) →
    mapGetLast key k (l.map f) = (mapGetLast key k l).map f := by
  intro l
  induction l with
  | nil => intro _; rfl
  | cons x xs ih =>
    intro hiff
    have ih' := ih (fun z hz => hiff z (List.mem_cons_of_mem _ hz))
    rw [List.map_cons]
    cases hm : mapGetLast key k xs with
    | some y =>
      rw [mapGetLast_cons_some (ih'.trans (by rw [hm]; rfl)),
        mapGetLast_cons_some hm]
      rfl
    | none =>
      rw [mapGetLast_cons_none (ih'.trans (by rw [hm]; rfl)),
        mapGetLast_cons_none hm]
      by_cases hk : key x = k
      · rw [if_pos ((hiff x (List.mem_cons_self _ _)).mpr hk), if_pos hk]
        rfl
      · rw [if_neg (fun hc => hk ((hiff x (List.mem_cons_self _ _)).mp hc)),
          if_neg hk]
        rfl

theorem mapGetLast_filter {α κ : Type} {key : α → κ} [DecidableEq κ] {k : κ}
    {p : α → Bool} : ∀ {l : List α}, (∀ x ∈ l, key x = k → p x = true) →
    mapGetLast key k (l.filter p) = mapGetLast key k l := by
  intro l
  induction l with
  | nil => intro _; rfl
  | cons x xs ih =>
    intro hall
    have ih' := ih (fun z hz => hall z (List.mem_cons_of_mem _ hz))
    by_cases hp : p x = true
    · rw [List.filter_cons_of_pos hp]
      cases hm : mapGetLast key k xs with
      | some y =>
        rw [mapGetLast_cons_some (ih'.trans hm), mapGetLast_cons_some hm]
      | none =>
        rw [mapGetLast_cons_none (ih'.trans hm), mapGetLast_cons_none hm]
    · rw [List.filter_cons_of_neg (by simpa using hp)]
      rw [ih']
      have hk : key x ≠ k := fun hc => hp (hall x (List.mem_cons_self _ _) hc)
      cases hm : mapGetLast key k xs with
      | some y => exact (mapGetLast_cons_some hm).symm
      | none => exact ((mapGetLast_cons_none hm).trans (if_neg hk)).symm

theorem looseKey_of_fullKey {a b : SheetItem}
    (h : getItemKey a = getItemKey b) :
    getItemKeyWithoutTitle a = getItemKeyWithoutTitle b := by
  unfold getItemKey at h
  unfold getItemKeyWithoutTitle
  simp only [Prod.mk.injEq] at h ⊢
  exact ⟨h.1, h.2.1, h.2.2.1, h.2.2.2.1⟩

theorem fullKey_fields {a b : SheetItem} (h : getItemKey a = getItemKey b) :
    a.circle = b.circle ∧ a.eventDate = b.eventDate ∧ a.block = b.block ∧
      a.number = b.number ∧ a.title = b.title := by
  unfold getItemKey at h
  simpa only [Prod.mk.injEq] using h

theorem looseKey_fields {a b : SheetItem}
    (h : getItemKeyWithoutTitle a = getItemKeyWithoutTitle b) :
    a.circle = b.circle ∧ a.eventDate = b.eventDate ∧ a.block = b.block ∧
      a.number = b.number := by
  unfold getItemKeyWithoutTitle at h
  simpa only [Prod.mk.injEq] using h

theorem isSome_false_iff {α : Type} {o : Option α} :
    o.isSome = false ↔ o = none := by
  cases o <;> simp

theorem mem_itemsToUpdate_iff {current : List ShoppingItem}
    {sheet : List SheetItem} {u : ShoppingItem} :
    u ∈ (computeUpdateData current sheet).itemsToUpdate ↔
      ∃ s ∈ sheet, rowUpdate current s = some u := by
  unfold computeUpdateData
  exact List.mem_filterMap

theorem mem_itemsToAdd_iff {current : List ShoppingItem}
    {sheet : List SheetItem} {a : SheetItem} :
    a ∈ (computeUpdateData current sheet).itemsToAdd ↔
      a ∈ sheet ∧ rowIsAdd current a = true := by
  unfold computeUpdateData
  exact List.mem_filter

theorem rowIsAdd_iff_loose {current : List ShoppingItem} {a : SheetItem} :
    rowIsAdd current a = true ↔
      ∀ c ∈ current,
        getItemKeyWithoutTitle c.fields ≠ getItemKeyWithoutTitle a := by
  unfold rowIsAdd mapHas
  rw [Bool.and_eq_true, Bool.not_eq_true', Bool.not_eq_true',
    isSome_false_iff, isSome_false_iff,
    mapGetLast_eq_none_iff, mapGetLast_eq_none_iff]
  constructor
  · exact fun h => h.2
  · intro h
    refine ⟨?_, h⟩
    intro c hc hfull
    exact h c hc (looseKey_of_fullKey hfull)

/-- `rowUpdate` anatomy: an emitted update is field-identical to its
fetched row and carries the id and purchase status of a current item
whose loose key is the row's loose key. -/
theorem rowUpdate_anatomy {current : List ShoppingItem} {s : SheetItem}
    {u : ShoppingItem} (h : rowUpdate current s = some u) :
    u.fields = s ∧ ∃ e ∈ current, e.id = u.id ∧
      e.purchaseStatus = u.purchaseStatus ∧
      getItemKeyWithoutTitle e.fields = getItemKeyWithoutTitle s := by
  unfold rowUpdate at h
  cases hfull : mapGetLast itemFullKey (getItemKey s) current with
  | some e =>
    simp only [hfull] at h
    obtain ⟨hmem, hkey⟩ := mapGetLast_mem hfull
    by_cases hch : e.price ≠ s.price ∨ e.remarks ≠ s.remarks
    · rw [if_pos hch] at h
      injection h with h
      subst h
      obtain ⟨h1, h2, h3, h4, h5⟩ := fullKey_fields hkey
      simp only [ShoppingItem.fields] at h1 h2 h3 h4 h5
      constructor
      · show (⟨e.circle, e.eventDate, e.block, e.number, e.title, s.price,
          s.remarks⟩ : SheetItem) = s
        rw [h1, h2, h3, h4, h5]
      · exact ⟨e, hmem, rfl, rfl, looseKey_of_fullKey hkey⟩
    · rw [if_neg hch] at h
      exact Option.noConfusion h
  | none =>
    simp only [hfull] at h
    cases hloose : mapGetLast itemLooseKey (getItemKeyWithoutTitle s)
        current with
    | some e =>
      simp only [hloose] at h
      injection h with h
      subst h
      obtain ⟨hmem, hkey⟩ := mapGetLast_mem hloose
      obtain ⟨h1, h2, h3, h4⟩ := looseKey_fields hkey
      simp only [ShoppingItem.fields] at h1 h2 h3 h4
      constructor
      · show (⟨e.circle, e.eventDate, e.block, e.number, s.title, s.price,
          s.remarks⟩ : SheetItem) = s
        rw [h1, h2, h3, h4]
      · exact ⟨e, hmem, rfl, rfl, hkey⟩
    | none =>
      simp only [hloose] at h
      exact Option.noConfusion h

/-- Under distinct current ids and distinct fetched loose keys, at most
one update entry exists per id. -/
theorem update_unique {current : List ShoppingItem} {sheet : List SheetItem}
    (hids : (current.map (fun it => it.id)).Nodup)
    (hlk : (sheet.map getItemKeyWithoutTitle).Nodup)
    {u u' : ShoppingItem}
    (hu : u ∈ (computeUpdateData current sheet).itemsToUpdate)
    (hu' : u' ∈ (computeUpdateData current sheet).itemsToUpdate)
    (hid : u.id = u'.id) : u = u' := by
  obtain ⟨s, hs, hrow⟩ := mem_itemsToUpdate_iff.mp hu
  obtain ⟨s', hs', hrow'⟩ := mem_itemsToUpdate_iff.mp hu'
  obtain ⟨-, e, hemem, heid, -, heloose⟩ := rowUpdate_anatomy hrow
  obtain ⟨-, e', he'mem, he'id, -, he'loose⟩ := rowUpdate_anatomy hrow'
  have hee' : e = e' :=
    List.inj_on_of_nodup_map hids hemem he'mem
      (by simp only [heid, he'id, hid])
  have hss' : s = s' :=
    List.inj_on_of_nodup_map hlk hs hs'
      (by rw [← heloose, hee', he'loose])
  rw [hss'] at hrow
  rw [hrow] at hrow'
  exact Option.some.inj hrow'

/-- Under distinct current ids, the delete filter keeps exactly the
current items whose loose key occurs in the fetched set. -/
theorem afterDelete_eq (current : List ShoppingItem) (sheet : List SheetItem)
    (hids : (current.map (fun it => it.id)).Nodup) :
    current.filter (fun item =>
      !(((computeUpdateData current sheet).itemsToDelete.map
          (fun item => item.id)).contains item.id)) =
    current.filter (fun item =>
      mapHas getItemKeyWithoutTitle (getItemKeyWithoutTitle item.fields)
        sheet) := by
  apply List.filter_congr
  intro it hit
  by_cases hhas : mapHas getItemKeyWithoutTitle
      (getItemKeyWithoutTitle it.fields) sheet = true
  · rw [hhas, Bool.not_eq_true', Bool.eq_false_iff]
    intro hcontra
    obtain ⟨c, hcmem, hcid⟩ := List.mem_map.mp (List.elem_iff.mp hcontra)
    have hcfil := hcmem
    unfold computeUpdateData at hcfil
    obtain ⟨hccur, hcpred⟩ := List.mem_filter.mp hcfil
    have hcit : c = it := List.inj_on_of_nodup_map hids hccur hit hcid
    rw [hcit] at hcpred
    rw [hhas] at hcpred
    simp at hcpred
  · have hhas' : mapHas getItemKeyWithoutTitle
        (getItemKeyWithoutTitle it.fields) sheet = false :=
      Bool.eq_false_iff.mpr hhas
    rw [hhas']
    rw [Bool.not_eq_false']
    refine List.elem_iff.mpr (List.mem_map.mpr ⟨it, ?_, rfl⟩)
    unfold computeUpdateData
    refine List.mem_filter.mpr ⟨hit, ?_⟩
    rw [hhas']
    rfl

/-- `updFn` never changes an item's loose key. -/
theorem updFn_loose (current : List ShoppingItem) (sheet : List SheetItem)
    (hids : (current.map (fun it => it.id)).Nodup)
    {it : ShoppingItem} (hit : it ∈ current) :
    getItemKeyWithoutTitle
        ((updFn (computeUpdateData current sheet).itemsToUpdate it).fields) =
      getItemKeyWithoutTitle it.fields := by
  unfold updFn
  cases hm : mapGetLast (fun u => u.id) it.id
      (computeUpdateData current sheet).itemsToUpdate with
  | none => rfl
  | some u =>
    obtain ⟨humem, huid⟩ := mapGetLast_mem hm
    obtain ⟨s', hs', hrow⟩ := mem_itemsToUpdate_iff.mp humem
    obtain ⟨hfields, e, hemem, heid, -, heloose⟩ := rowUpdate_anatomy hrow
    have he_it : e = it :=
      List.inj_on_of_nodup_map hids hemem hit (heid.trans huid)
    show getItemKeyWithoutTitle u.fields = _
    rw [hfields, ← heloose, he_it]

/-- If a row produced an update carrying an item's id, `updFn` replaces
that item by exactly that update. -/
theorem updFn_eq_of_update (current : List ShoppingItem)
    (sheet : List SheetItem)
    (hids : (current.map (fun it => it.id)).Nodup)
    (hlk : (sheet.map getItemKeyWithoutTitle).Nodup)
    {s : SheetItem} {u : ShoppingItem} (hs : s ∈ sheet)
    (hrow : rowUpdate current s = some u)
    {it : ShoppingItem} (hid : u.id = it.id) :
    updFn (computeUpdateData current sheet).itemsToUpdate it = u := by
  have hu : u ∈ (computeUpdateData current sheet).itemsToUpdate :=
    mem_itemsToUpdate_iff.mpr ⟨s, hs, hrow⟩
  unfold updFn
  rw [mapGetLast_eq_of_unique hu hid
    (fun z hz hkz => update_unique hids hlk hz hu (hkz.trans hid.symm))]
  rfl

/-- If no update entry carries an item's id, `updFn` leaves it alone. -/
theorem updFn_eq_self (current : List ShoppingItem) (sheet : List SheetItem)
    {it : ShoppingItem}
    (hno : ∀ s ∈ sheet, ∀ u, rowUpdate current s = some u → u.id ≠ it.id) :
    updFn (computeUpdateData current sheet).itemsToUpdate it = it := by
  unfold updFn
  cases hm : mapGetLast (fun u => u.id) it.id
      (computeUpdateData current sheet).itemsToUpdate with
  | none => rfl
  | some u =>
    obtain ⟨humem, huid⟩ := mapGetLast_mem hm
    obtain ⟨s', hs', hrow⟩ := mem_itemsToUpdate_iff.mp humem
    exact absurd huid (hno s' hs' u hrow)

/-- Any update entry carrying the id of `x ∈ current` comes from the
unique row whose loose key is `x`'s. -/
theorem update_of_id (current : List ShoppingItem) (sheet : List SheetItem)
    (hids : (current.map (fun it => it.id)).Nodup)
    {x u : ShoppingItem} (hx : x ∈ current)
    (hu : u ∈ (computeUpdateData current sheet).itemsToUpdate)
    (hid : u.id = x.id) :
    ∃ s ∈ sheet, rowUpdate current s = some u ∧
      getItemKeyWithoutTitle s = getItemKeyWithoutTitle x.fields ∧
      u.fields = s := by
  obtain ⟨s, hs, hrow⟩ := mem_itemsToUpdate_iff.mp hu
  obtain ⟨hfields, e, hemem, heid, -, heloose⟩ := rowUpdate_anatomy hrow
  have he_x : e = x :=
    List.inj_on_of_nodup_map hids hemem hx (heid.trans hid)
  exact ⟨s, hs, hrow, by rw [← heloose, he_x], hfields⟩

/-- Every element of the confirmed list is either the (possibly
updated) image of a surviving current item or a freshly inserted add. -/
theorem mem_applyUpdateData (current : List ShoppingItem)
    (sheet : List SheetItem) (freshIds : Nat → String)
    (hids : (current.map (fun it => it.id)).Nodup) {x : ShoppingItem}
    (hx : x ∈ applyUpdateData freshIds current
      (computeUpdateData current sheet)) :
    (∃ it ∈ current,
      mapHas getItemKeyWithoutTitle (getItemKeyWithoutTitle it.fields)
        sheet = true ∧
      x = updFn (computeUpdateData current sheet).itemsToUpdate it) ∨
    (∃ a ∈ sheet, rowIsAdd current a = true ∧ x.fields = a) := by
  unfold applyUpdateData at hx
  rcases mem_insertAdds_fwd hx with hbase | ⟨a, ha, j, rfl⟩
  · obtain ⟨it, hitmem, rfl⟩ := List.mem_map.mp hbase
    rw [afterDelete_eq current sheet hids] at hitmem
    obtain ⟨hitcur, hitsurv⟩ := List.mem_filter.mp hitmem
    exact Or.inl ⟨it, hitcur, hitsurv, rfl⟩
  · obtain ⟨hasheet, hisadd⟩ := mem_itemsToAdd_iff.mp ha
    exact Or.inr ⟨a, hasheet, hisadd, rfl⟩

/-- The image of a surviving current item is in the confirmed list. -/
theorem updFn_mem_applyUpdateData (current : List ShoppingItem)
    (sheet : List SheetItem) (freshIds : Nat → String)
    (hids : (current.map (fun it => it.id)).Nodup) {it : ShoppingItem}
    (hit : it ∈ current)
    (hsurv : mapHas getItemKeyWithoutTitle
      (getItemKeyWithoutTitle it.fields) sheet = true) :
    updFn (computeUpdateData current sheet).itemsToUpdate it ∈
      applyUpdateData freshIds current (computeUpdateData current sheet) := by
  unfold applyUpdateData
  refine mem_insertAdds_of_mem (List.mem_map_of_mem _ ?_)
  rw [afterDelete_eq current sheet hids]
  exact List.mem_filter.mpr ⟨hit, hsurv⟩

/-- Every add of the change-set lands in the confirmed list (with some
fresh id). -/
theorem add_mem_applyUpdateData (current : List ShoppingItem)
    (sheet : List SheetItem) (freshIds : Nat → String) {a : SheetItem}
    (ha : a ∈ (computeUpdateData current sheet).itemsToAdd) :
    ∃ j, mkShoppingItem (freshIds j) a ∈
      applyUpdateData freshIds current (computeUpdateData current sheet) := by
  unfold applyUpdateData
  exact insertAdds_exists_mem ha

/-- When the fetched row `s` full-matches some current item, `updFn`
preserves whether an item's full key equals `s`'s. -/
theorem updFn_full_iff (current : List ShoppingItem) (sheet : List SheetItem)
    (hids : (current.map (fun it => it.id)).Nodup)
    (hlk : (sheet.map getItemKeyWithoutTitle).Nodup)
    {s : SheetItem} (hs : s ∈ sheet) {e : ShoppingItem}
    (hfull : mapGetLast itemFullKey (getItemKey s) current = some e)
    {x : ShoppingItem} (hx : x ∈ current) :
    (itemFullKey (updFn (computeUpdateData current sheet).itemsToUpdate x) =
        getItemKey s ↔ itemFullKey x = getItemKey s) := by
  obtain ⟨hemem, hekey⟩ := mapGetLast_mem hfull
  unfold updFn
  cases hm : mapGetLast (fun u => u.id) x.id
      (computeUpdateData current sheet).itemsToUpdate with
  | none => exact Iff.rfl
  | some u =>
    obtain ⟨humem, huid⟩ := mapGetLast_mem hm
    obtain ⟨s', hs', hrow', hsx', hufields⟩ :=
      update_of_id current sheet hids hx humem huid
    show itemFullKey u = getItemKey s ↔ _
    by_cases hK : getItemKeyWithoutTitle x.fields = getItemKeyWithoutTitle s
    · have hss' : s' = s :=
        List.inj_on_of_nodup_map hlk hs' hs (hsx'.trans hK)
      subst hss'
      unfold rowUpdate at hrow'
      simp only [hfull] at hrow'
      by_cases hch : e.price ≠ s'.price ∨ e.remarks ≠ s'.remarks
      · rw [if_pos hch] at hrow'
        injection hrow' with hrow'
        have hue : u.id = e.id := by rw [← hrow']
        have hxe : x = e :=
          List.inj_on_of_nodup_map hids hx hemem (huid.symm.trans hue)
        have hLHS : itemFullKey u = getItemKey s' := by
          rw [← hrow']
          exact hekey
        have hRHS : itemFullKey x = getItemKey s' := by
          rw [hxe]
          exact hekey
        exact iff_of_true hLHS hRHS
      · rw [if_neg hch] at hrow'
        exact Option.noConfusion hrow'
    · refine iff_of_false ?_ ?_
      · intro hc
        apply hK
        have h1 : getItemKeyWithoutTitle u.fields =
            getItemKeyWithoutTitle s := looseKey_of_fullKey hc
        rw [hufields, hsx'] at h1
        exact h1
      · intro hc
        exact hK (looseKey_of_fullKey hc)

/-- The update emitted by the loose-key tier: title, price and remarks
replaced, id and purchase status carried over. -/
def looseUpdatedItem (e : ShoppingItem) (s : SheetItem) : ShoppingItem :=
  { e with title := s.title, price := s.price, remarks := s.remarks }

/-- Core of the idempotence proof: after a confirm, every fetched row
full-matches an element of the new collection whose price and remarks
already agree with the row. -/
theorem c1_key (current : List ShoppingItem) (sheet : List SheetItem)
    (freshIds : Nat → String)
    (hids : (current.map (fun it => it.id)).Nodup)
    (hlk : (sheet.map getItemKeyWithoutTitle).Nodup)
    {s : SheetItem} (hs : s ∈ sheet) :
    ∃ y, mapGetLast itemFullKey (getItemKey s)
        (applyUpdateData freshIds current (computeUpdateData current sheet)) =
          some y ∧
      y.price = s.price ∧ y.remarks = s.remarks := by
  cases hfull : mapGetLast itemFullKey (getItemKey s) current with
  | some e =>
    obtain ⟨hemem, hekey⟩ := mapGetLast_mem hfull
    have heloose : getItemKeyWithoutTitle e.fields =
        getItemKeyWithoutTitle s := looseKey_of_fullKey hekey
    have hstep1 : mapGetLast itemFullKey (getItemKey s)
        (applyUpdateData freshIds current (computeUpdateData current sheet)) =
        mapGetLast itemFullKey (getItemKey s)
          ((current.filter (fun item =>
            !(((computeUpdateData current sheet).itemsToDelete.map
                (fun item => item.id)).contains item.id))).map
            (updFn (computeUpdateData current sheet).itemsToUpdate)) := by
      unfold applyUpdateData
      apply mapGetLast_insertAdds
      intro a ha j hc
      have hkeya : getItemKey a = getItemKey s := hc
      obtain ⟨hasheet, hisadd⟩ := mem_itemsToAdd_iff.mp ha
      exact (rowIsAdd_iff_loose.mp hisadd e hemem)
        (heloose.trans (looseKey_of_fullKey hkeya).symm)
    have hstep2 : mapGetLast itemFullKey (getItemKey s)
          ((current.filter (fun item =>
            !(((computeUpdateData current sheet).itemsToDelete.map
                (fun item => item.id)).contains item.id))).map
            (updFn (computeUpdateData current sheet).itemsToUpdate)) =
        (mapGetLast itemFullKey (getItemKey s)
          (current.filter (fun item =>
            !(((computeUpdateData current sheet).itemsToDelete.map
                (fun item => item.id)).contains item.id)))).map
          (updFn (computeUpdateData current sheet).itemsToUpdate) := by
      apply mapGetLast_map
      intro x hxf
      exact updFn_full_iff current sheet hids hlk hs hfull
        (List.mem_of_mem_filter hxf)
    have hstep3 : mapGetLast itemFullKey (getItemKey s)
          (current.filter (fun item =>
            !(((computeUpdateData current sheet).itemsToDelete.map
                (fun item => item.id)).contains item.id))) =
        mapGetLast itemFullKey (getItemKey s) current := by
      rw [afterDelete_eq current sheet hids]
      apply mapGetLast_filter
      intro x hx hkx
      have hlx : getItemKeyWithoutTitle x.fields =
          getItemKeyWithoutTitle s := looseKey_of_fullKey hkx
      unfold mapHas
      exact mapGetLast_isSome_iff.mpr ⟨s, hs, hlx.symm⟩
    rw [hstep1, hstep2, hstep3, hfull]
    by_cases hch : e.price ≠ s.price ∨ e.remarks ≠ s.remarks
    · have hrow : rowUpdate current s =
          some { e with price := s.price, remarks := s.remarks } := by
        unfold rowUpdate
        simp only [hfull]
        rw [if_pos hch]
      have hupd := updFn_eq_of_update current sheet hids hlk hs hrow
        (rfl :
          ({ e with price := s.price, remarks := s.remarks }).id = e.id)
      refine ⟨{ e with price := s.price, remarks := s.remarks },
        ?_, rfl, rfl⟩
      rw [Option.map_some']
      rw [hupd]
    · push_neg at hch
      have hrownone : rowUpdate current s = none := by
        unfold rowUpdate
        simp only [hfull]
        rw [if_neg (by push_neg; exact hch)]
      have hno : ∀ s' ∈ sheet, ∀ u, rowUpdate current s' = some u →
          u.id ≠ e.id := by
        intro s' hs' u hrow' hcontra
        have humem : u ∈ (computeUpdateData current sheet).itemsToUpdate :=
          mem_itemsToUpdate_iff.mpr ⟨s', hs', hrow'⟩
        obtain ⟨s'', hs'', hrow'', hsx'', -⟩ :=
          update_of_id current sheet hids hemem humem hcontra
        have hss : s'' = s :=
          List.inj_on_of_nodup_map hlk hs'' hs (hsx''.trans heloose)
        rw [hss, hrownone] at hrow''
        exact Option.noConfusion hrow''
      refine ⟨e, ?_, hch.1, hch.2⟩
      rw [Option.map_some', updFn_eq_self current sheet hno]
  | none =>
    have hfullnone := mapGetLast_eq_none_iff.mp hfull
    cases hloose : mapGetLast itemLooseKey (getItemKeyWithoutTitle s)
        current with
    | some e =>
      obtain ⟨hemem, hekey⟩ := mapGetLast_mem hloose
      have hrow : rowUpdate current s = some (looseUpdatedItem e s) := by
        unfold rowUpdate
        simp only [hfull, hloose]
        rfl
      have hukey : itemFullKey (looseUpdatedItem e s) = getItemKey s := by
        obtain ⟨h1, h2, h3, h4⟩ := looseKey_fields hekey
        simp only [ShoppingItem.fields] at h1 h2 h3 h4
        show (e.circle, e.eventDate, e.block, e.number, s.title) =
          (s.circle, s.eventDate, s.block, s.number, s.title)
        rw [h1, h2, h3, h4]
      have hsurv : mapHas getItemKeyWithoutTitle
          (getItemKeyWithoutTitle e.fields) sheet = true := by
        unfold mapHas
        exact mapGetLast_isSome_iff.mpr ⟨s, hs, hekey.symm⟩
      have humem := updFn_mem_applyUpdateData current sheet freshIds hids
        hemem hsurv
      have hue : updFn (computeUpdateData current sheet).itemsToUpdate e =
          looseUpdatedItem e s :=
        updFn_eq_of_update current sheet hids hlk hs hrow rfl
      have hsome : (mapGetLast itemFullKey (getItemKey s)
          (applyUpdateData freshIds current
            (computeUpdateData current sheet))).isSome = true :=
        mapGetLast_isSome_iff.mpr ⟨_, hue ▸ humem, hukey⟩
      obtain ⟨y, hy⟩ := Option.isSome_iff_exists.mp hsome
      obtain ⟨hymem, hykey⟩ := mapGetLast_mem hy
      have hyu : y = looseUpdatedItem e s := by
        rcases mem_applyUpdateData current sheet freshIds hids hymem with
          ⟨it, hit, hsurvit, hyeq⟩ | ⟨a, hasheet, hisadd, hya⟩
        · subst hyeq
          cases hm : mapGetLast (fun v => v.id) it.id
              (computeUpdateData current sheet).itemsToUpdate with
          | none =>
            have heq : updFn (computeUpdateData current sheet).itemsToUpdate
                it = it := by
              unfold updFn
              rw [hm]
              rfl
            rw [heq] at hykey
            exact absurd hykey (hfullnone it hit)
          | some u' =>
            have heq : updFn (computeUpdateData current sheet).itemsToUpdate
                it = u' := by
              unfold updFn
              rw [hm]
              rfl
            obtain ⟨hu'mem, hu'id⟩ := mapGetLast_mem hm
            obtain ⟨s', hs', hrow', hsx', hu'fields⟩ :=
              update_of_id current sheet hids hit hu'mem hu'id
            rw [heq] at hykey ⊢
            have hss' : s' = s := by
              refine List.inj_on_of_nodup_map hlk hs' hs ?_
              have h2 := looseKey_of_fullKey hykey
              rw [hu'fields] at h2
              exact h2
            rw [hss', hrow] at hrow'
            exact (Option.some.inj hrow').symm
        · exfalso
          have hla : getItemKeyWithoutTitle a = getItemKeyWithoutTitle s := by
            have h2 := looseKey_of_fullKey hykey
            rw [hya] at h2
            exact h2
          exact (rowIsAdd_iff_loose.mp hisadd e hemem)
            (hekey.trans hla.symm)
      refine ⟨y, hy, ?_, ?_⟩
      · rw [hyu]
        rfl
      · rw [hyu]
        rfl
    | none =>
      have hloosenone := mapGetLast_eq_none_iff.mp hloose
      have hisadd : rowIsAdd current s = true :=
        rowIsAdd_iff_loose.mpr (fun c hc => hloosenone c hc)
      have hsadd : s ∈ (computeUpdateData current sheet).itemsToAdd :=
        mem_itemsToAdd_iff.mpr ⟨hs, hisadd⟩
      obtain ⟨j, hjmem⟩ := add_mem_applyUpdateData current sheet freshIds hsadd
      have hjkey : itemFullKey (mkShoppingItem (freshIds j) s) =
          getItemKey s := rfl
      have hsome := mapGetLast_isSome_iff.mpr ⟨_, hjmem, hjkey⟩
      obtain ⟨y, hy⟩ := Option.isSome_iff_exists.mp hsome
      obtain ⟨hymem, hykey⟩ := mapGetLast_mem hy
      have hyf : y.fields = s := by
        rcases mem_applyUpdateData current sheet freshIds hids hymem with
          ⟨it, hit, hsurvit, hyeq⟩ | ⟨a, hasheet, hisadd', hya⟩
        · exfalso
          subst hyeq
          cases hm : mapGetLast (fun v => v.id) it.id
              (computeUpdateData current sheet).itemsToUpdate with
          | none =>
            have heq : updFn (computeUpdateData current sheet).itemsToUpdate
                it = it := by
              unfold updFn
              rw [hm]
              rfl
            rw [heq] at hykey
            exact (hloosenone it hit) (looseKey_of_fullKey hykey)
          | some u' =>
            have heq : updFn (computeUpdateData current sheet).itemsToUpdate
                it = u' := by
              unfold updFn
              rw [hm]
              rfl
            obtain ⟨hu'mem, hu'id⟩ := mapGetLast_mem hm
            obtain ⟨s', hs', hrow', hsx', hu'fields⟩ :=
              update_of_id current sheet hids hit hu'mem hu'id
            rw [heq] at hykey
            have hls : getItemKeyWithoutTitle s' =
                getItemKeyWithoutTitle s := by
              have h2 := looseKey_of_fullKey hykey
              rw [hu'fields] at h2
              exact h2
            exact (hloosenone it hit) (hsx'.symm.trans hls)
        · have hkeya : getItemKey a = getItemKey s := by
            rw [← hya]
            exact hykey
          have haeq : a = s :=
            List.inj_on_of_nodup_map hlk hasheet hs
              (looseKey_of_fullKey hkeya)
          rw [hya, haeq]
      exact ⟨y, hy, congrArg SheetItem.price hyf,
        congrArg SheetItem.remarks hyf⟩

/-- C1 corrected: reconciliation is idempotent provided the current
collection has pairwise-distinct ids (the data model's identity
invariant) and the fetched rows have pairwise-distinct loose keys:
diffing once, confirming, and diffing again against the same unchanged
fetched row set yields the empty change-set. -/
theorem c1_idempotent (current : List ShoppingItem) (sheet : List SheetItem)
    (freshIds : Nat → String)
    (hids : (current.map (fun it => it.id)).Nodup)
    (hlk : (sheet.map getItemKeyWithoutTitle).Nodup) :
    computeUpdateData
      (applyUpdateData freshIds current (computeUpdateData current sheet))
      sheet =
    { itemsToDelete := [], itemsToUpdate := [], itemsToAdd := [] } := by
  have hG1 : ∀ x ∈ applyUpdateData freshIds current
      (computeUpdateData current sheet),
      mapHas getItemKeyWithoutTitle (getItemKeyWithoutTitle x.fields)
        sheet = true := by
    intro x hx
    rcases mem_applyUpdateData current sheet freshIds hids hx with
      ⟨it, hit, hsurv, rfl⟩ | ⟨a, hasheet, -, hxa⟩
    · rw [updFn_loose current sheet hids hit]
      exact hsurv
    · unfold mapHas
      exact mapGetLast_isSome_iff.mpr ⟨a, hasheet, by rw [hxa]⟩
  have h1 : (applyUpdateData freshIds current
        (computeUpdateData current sheet)).filter
      (fun item => !(mapHas getItemKeyWithoutTitle
        (getItemKeyWithoutTitle item.fields) sheet)) = [] := by
    refine List.filter_eq_nil_iff.mpr ?_
    intro x hx
    rw [hG1 x hx]
    simp
  have h2 : sheet.filterMap (rowUpdate (applyUpdateData freshIds current
      (computeUpdateData current sheet))) = [] := by
    refine List.filterMap_eq_nil_iff.mpr ?_
    intro s hs
    obtain ⟨y, hy, hp, hr⟩ := c1_key current sheet freshIds hids hlk hs
    unfold rowUpdate
    simp only [hy]
    rw [if_neg (by push_neg; exact ⟨hp, hr⟩)]
  have h3 : sheet.filter (rowIsAdd (applyUpdateData freshIds current
      (computeUpdateData current sheet))) = [] := by
    refine List.filter_eq_nil_iff.mpr ?_
    intro s hs hc
    obtain ⟨y, hy, -, -⟩ := c1_key current sheet freshIds hids hlk hs
    obtain ⟨hymem, hykey⟩ := mapGetLast_mem hy
    exact (rowIsAdd_iff_loose.mp hc y hymem) (looseKey_of_fullKey hykey)
  have hfold : computeUpdateData
      (applyUpdateData freshIds current (computeUpdateData current sheet))
      sheet =
      { itemsToDelete := (applyUpdateData freshIds current
          (computeUpdateData current sheet)).filter
            (fun item => !(mapHas getItemKeyWithoutTitle
              (getItemKeyWithoutTitle item.fields) sheet)),
        itemsToUpdate := sheet.filterMap (rowUpdate (applyUpdateData
          freshIds current (computeUpdateData current sheet))),
        itemsToAdd := sheet.filter (rowIsAdd (applyUpdateData freshIds
          current (computeUpdateData current sheet))) } := rfl
  rw [hfold, h1, h2, h3]

/-- Two fetched rows sharing one loose key but differing in title. -/
def c1Rows : List SheetItem :=
  [{ circle := "1", eventDate := "1日目", block := "A", number := "01",
     title := "t", price := 100, remarks := "" },
   { circle := "1", eventDate := "1日目", block := "A", number := "01",
     title := "t2", price := 100, remarks := "" }]

/-- A single fetched row loose-matching `sampleItem "1"` with a changed
title, price and remarks. -/
def c1Row : List SheetItem :=
  [{ circle := "1", eventDate := "1日目", block := "A", number := "01",
     title := "t2", price := 120, remarks := "r" }]

/-- C1 as stated is false on the code: when the fetched set has two rows
sharing a loose key (titles "t" and "t2"), the loose-key map keeps only
the last row, and the single current item's title oscillates — the
second diff against the same unchanged fetched set emits another update
instead of the empty change-set. -/
theorem c1_counterexample :
    computeUpdateData
      (applyUpdateData (fun _ => "x") [sampleItem "1"]
        (computeUpdateData [sampleItem "1"] c1Rows))
      c1Rows ≠
    { itemsToDelete := [], itemsToUpdate := [], itemsToAdd := [] } := by
  decide

/-- Witness for C1's corrected statement: one current item, one
loose-matching row with changed title/price/remarks; after the confirm
the second diff is empty. -/
theorem c1_idempotent_witness :
    computeUpdateData
      (applyUpdateData (fun _ => "x") [sampleItem "1"]
        (computeUpdateData [sampleItem "1"] c1Row))
      c1Row =
    { itemsToDelete := [], itemsToUpdate := [], itemsToAdd := [] } :=
  c1_idempotent [sampleItem "1"] c1Row (fun _ => "x") (by decide) (by decide)

end Sokubaikai
